import Mathlib

/-!
Verification of a CDCL SAT solver (`src/solver.rs`, `src/wff.rs`).

The Rust data model is embedded shallowly: `HashMap<String, Assignment>` becomes
an association list with key-replacing insertion, `HashSet<Literal>` collections
are materialised as deduplicated lists, machine integers (`i32`) become `Int`,
and the solver's loops are given explicit fuel.
-/

namespace Cdcl

/-- A literal: variable identifier plus negation flag (`wff.rs`, `Literal`). -/
structure Literal where
  value : String
  negation : Bool
deriving DecidableEq, Repr

/-- `Literal::new` from `wff.rs`. -/
def Literal.new (value : String) (negation : Bool) : Literal := ⟨value, negation⟩

/-- `Literal::negate` from `wff.rs`. -/
def Literal.negate (l : Literal) : Literal := ⟨l.value, !l.negation⟩

/-- A clause: an ordered sequence of literals (`wff.rs`, `Clause`). -/
structure Clause where
  literals : List Literal
deriving DecidableEq, Repr

/-- `Clause::new` from `wff.rs`. -/
def Clause.new (literals : List Literal) : Clause := ⟨literals⟩

/-- A formula: clause database plus variable set (`wff.rs`, `Formula`).
The Rust `HashSet<String>` of variables is modelled as a deduplicated list. -/
structure Formula where
  clauses : List Clause
  variables' : List String
deriving DecidableEq, Repr

/-- `Formula::new` from `wff.rs`: collects the variables of all clause
literals into a set (here: a deduplicated list). -/
def Formula.new (clauses : List Clause) : Formula :=
  ⟨clauses, ((clauses.flatMap fun c => c.literals.map (·.value))).dedup⟩

/-- Per-variable assignment record (`solver.rs`, `Assignment`). -/
structure Assignment where
  value : Bool
  antecedent : Option Clause
  dl : Int
deriving DecidableEq, Repr

/-- `Assignment::new` from `solver.rs`. -/
def Assignment.new (value : Bool) (antecedent : Option Clause) (dl : Int) : Assignment :=
  ⟨value, antecedent, dl⟩

/-- Key-replacing insertion into an association list; models
`HashMap::insert` (`solver.rs`, `Assignments::assign`). -/
def insertAssoc : List (String × Assignment) → String → Assignment →
    List (String × Assignment)
  | [], k, v => [(k, v)]
  | (k', v') :: rest, k, v =>
    if k' = k then (k, v) :: rest else (k', v') :: insertAssoc rest k v

/-- First-match lookup in an association list; models `HashMap::get`. -/
def lookupAssoc : List (String × Assignment) → String → Option Assignment
  | [], _ => none
  | (k', v') :: rest, k => if k' = k then some v' else lookupAssoc rest k

/-- The assignment trail (`solver.rs`, `Assignments`): a map from variable
to `Assignment` plus the current decision level. -/
structure Assignments where
  assignments : List (String × Assignment)
  dl : Int
deriving DecidableEq, Repr

/-- `Assignments::new` from `solver.rs`. -/
def Assignments.new : Assignments := ⟨[], 0⟩

/-- `Assignments::assign` from `solver.rs`: unconditionally records
`{value, antecedent, dl = self.dl}` for the variable. -/
def Assignments.assign (a : Assignments) (variable' : String) (value : Bool)
    (antecedent : Option Clause) : Assignments :=
  { a with assignments :=
      insertAssoc a.assignments variable' (Assignment.new value antecedent a.dl) }

/-- `Assignments::remove` from `solver.rs`. -/
def Assignments.remove (a : Assignments) (variable' : String) : Assignments :=
  { a with assignments := a.assignments.filter fun kv => kv.1 ≠ variable' }

/-- `Assignments::get` from `solver.rs`. -/
def Assignments.get (a : Assignments) (variable' : String) : Option Assignment :=
  lookupAssoc a.assignments variable'

/-- `SolverResult` from `solver.rs`. -/
inductive SolverResult where
  | Satisfied
  | Unresolved
deriving DecidableEq, Repr

/-- Solver state (`solver.rs`, `CdclSolver`). -/
structure CdclSolver where
  formula : Formula
  assignments : Assignments
  sat : SolverResult
deriving DecidableEq, Repr

/-- `CdclSolver::new` from `solver.rs`. -/
def CdclSolver.new (formula : Formula) : CdclSolver :=
  ⟨formula, Assignments.new, SolverResult.Unresolved⟩

/-- `ClauseStatus` from `solver.rs`. -/
inductive ClauseStatus where
  | Satisfied
  | Unsatisfied
  | Unit
  | Unresolved
deriving DecidableEq, Repr

/-- `UnitPropagationResult` from `solver.rs`. -/
inductive UnitPropagationResult where
  | Conflict
  | Unresolved
deriving DecidableEq, Repr

/-- A literal counted as false by `clause_status`: its variable is assigned
and the assigned value equals the negation flag. -/
def isFalseLit (a : Assignments) (l : Literal) : Bool :=
  match a.get l.value with
  | some asg => asg.value == l.negation
  | none => false

/-- A literal counted as true by `clause_status`: its variable is assigned
and the assigned value differs from the negation flag. -/
def isTrueLit (a : Assignments) (l : Literal) : Bool :=
  match a.get l.value with
  | some asg => asg.value != l.negation
  | none => false

/-- `CdclSolver::clause_status` (`solver.rs` lines 128–152), factored through
the trail: count false/true literal occurrences, then classify with the
source's priority (Satisfied, Unsatisfied, Unit, Unresolved). Counts are
`i32` in the source; no overflow is reachable, so they are `Int` here. -/
def clauseStatus (a : Assignments) (c : Clause) : ClauseStatus :=
  let false_count : Int := c.literals.countP (isFalseLit a)
  let true_count : Int := c.literals.countP (isTrueLit a)
  if true_count > 0 then ClauseStatus.Satisfied
  else if false_count = (c.literals.length : Int) then ClauseStatus.Unsatisfied
  else if false_count = (c.literals.length : Int) - 1 then ClauseStatus.Unit
  else ClauseStatus.Unresolved

/-- `CdclSolver::clause_status` as a method on the solver state. -/
def CdclSolver.clause_status (s : CdclSolver) (c : Clause) : ClauseStatus :=
  clauseStatus s.assignments c

/-- The first literal of the list whose variable is unassigned; the inner
scan of the `Unit` arm of `unit_propagation` (`solver.rs` lines 166–175). -/
def firstUnassigned (a : Assignments) : List Literal → Option Literal
  | [] => none
  | l :: ls =>
    match a.get l.value with
    | some _ => firstUnassigned a ls
    | none => some l

/-- Result of one full scan of the clause database inside
`unit_propagation`: either a conflict clause (short-circuit) or the final
`finished` flag, in both cases with the updated trail. -/
inductive ScanResult where
  | conflict (c : Clause) (a : Assignments)
  | done (finished : Bool) (a : Assignments)

/-- One pass of the `for clause in &self.formula.clauses` loop of
`unit_propagation` (`solver.rs` lines 158–194). -/
def scanClauses (a : Assignments) (finished : Bool) :
    List Clause → ScanResult
  | [] => ScanResult.done finished a
  | c :: rest =>
    match clauseStatus a c with
    | ClauseStatus.Satisfied => scanClauses a finished rest
    | ClauseStatus.Unresolved => scanClauses a finished rest
    | ClauseStatus.Unsatisfied => ScanResult.conflict c a
    | ClauseStatus.Unit =>
      match firstUnassigned a c.literals with
      | some lit =>
        scanClauses (a.assign lit.value (!lit.negation) (some c)) false rest
      | none => scanClauses a false rest

/-- The `while !finished` loop of `unit_propagation`, with fuel for the
outer loop; `none` means the fuel ran out. -/
def unitPropagationAux (cs : List Clause) :
    Nat → Assignments → Option (UnitPropagationResult × Option Clause × Assignments)
  | 0, _ => none
  | fuel + 1, a =>
    match scanClauses a true cs with
    | ScanResult.conflict c a' =>
      some (UnitPropagationResult.Conflict, some c, a')
    | ScanResult.done true a' =>
      some (UnitPropagationResult.Unresolved, none, a')
    | ScanResult.done false a' => unitPropagationAux cs fuel a'

/-- `CdclSolver::unit_propagation` (`solver.rs` lines 154–197). -/
def CdclSolver.unit_propagation (s : CdclSolver) (fuel : Nat) :
    Option ((UnitPropagationResult × Option Clause) × CdclSolver) :=
  match unitPropagationAux s.formula.clauses fuel s.assignments with
  | none => none
  | some (res, oc, a') => some ((res, oc), { s with assignments := a' })

/-- `CdclSolver::add_learned_clause` from `solver.rs`. -/
def CdclSolver.add_learned_clause (s : CdclSolver) (c : Clause) : CdclSolver :=
  { s with formula := { s.formula with clauses := s.formula.clauses ++ [c] } }

/-- `CdclSolver::all_variables_assigned` from `solver.rs`: compares the
size of the trail map with the size of the variable set. -/
def CdclSolver.all_variables_assigned (s : CdclSolver) : Bool :=
  s.assignments.assignments.length == s.formula.variables'.length

/-- `CdclSolver::backtrack` (`solver.rs` lines 221–232): remove every
trail entry whose decision level exceeds `b`. The source collects the
offending keys and removes them one by one; over a map with unique keys
that is the filter written here. -/
def CdclSolver.backtrack (s : CdclSolver) (b : Int) : CdclSolver :=
  { s with assignments :=
      { s.assignments with assignments :=
          s.assignments.assignments.filter fun kv => ¬ kv.2.dl > b } }

/-- `CdclSolver::resolve` (`solver.rs` lines 234–240): set-union of the two
literal collections with both polarities of `x` removed. The Rust
`HashSet<Literal>` is materialised as a deduplicated list. -/
def CdclSolver.resolve (a b : Clause) (x : String) : Clause :=
  Clause.new (((a.literals ++ b.literals).dedup).filter fun l =>
    l ≠ Literal.new x true ∧ l ≠ Literal.new x false)

/-- The filter `lit ↦ trail[lit.var].unwrap().dl == dl` of
`conflict_analysis`; `none` models the `unwrap` panic on an unassigned
variable. -/
def filterAtLevel (a : Assignments) (dl : Int) : List Literal → Option (List Literal)
  | [] => some []
  | l :: ls =>
    match a.get l.value with
    | none => none
    | some asg =>
      match filterAtLevel a dl ls with
      | none => none
      | some rest => some (if asg.dl = dl then l :: rest else rest)

/-- The filter `lit ↦ trail[lit.var].unwrap().antecedent.is_some()` of
`conflict_analysis`; `none` models the `unwrap` panic. -/
def filterHasAnte (a : Assignments) : List Literal → Option (List Literal)
  | [] => some []
  | l :: ls =>
    match a.get l.value with
    | none => none
    | some asg =>
      match filterHasAnte a ls with
      | none => none
      | some rest => some (if asg.antecedent.isSome then l :: rest else rest)

/-- The map `lit ↦ trail[lit.var].unwrap().dl` used to collect the decision
levels of the learned clause; `none` models the `unwrap` panic. -/
def dlList (a : Assignments) : List Literal → Option (List Int)
  | [] => some []
  | l :: ls =>
    match a.get l.value with
    | none => none
    | some asg =>
      match dlList a ls with
      | none => none
      | some rest => some (asg.dl :: rest)

/-- Outcome of the resolution loop of `conflict_analysis`: the final
resolvent, a panic on a failed `unwrap`, or fuel exhaustion. -/
inductive CALoopRes where
  | done (c : Clause)
  | panicked
  | fuelOut
deriving DecidableEq, Repr

/-- The `while literals.len() != 1` loop of `conflict_analysis`
(`solver.rs` lines 255–289): restrict to literals with an antecedent, take
the first, resolve with its antecedent on its variable, recompute the
current-level literals; `head? = none` is the defensive `break`. -/
def caLoop (a : Assignments) (dl : Int) : Nat → Clause → List Literal → CALoopRes
  | 0, _, _ => CALoopRes.fuelOut
  | fuel + 1, current, lits =>
    if lits.length = 1 then CALoopRes.done current
    else
      match filterHasAnte a lits with
      | none => CALoopRes.panicked
      | some lits' =>
        match lits'.head? with
        | none => CALoopRes.done current
        | some lit =>
          match a.get lit.value with
          | none => CALoopRes.panicked
          | some asg =>
            match asg.antecedent with
            | none => CALoopRes.panicked
            | some ante =>
              let current' := CdclSolver.resolve current ante lit.value
              match filterAtLevel a dl current'.literals with
              | none => CALoopRes.panicked
              | some lits'' => caLoop a dl fuel current' lits''

/-- Result of `conflict_analysis`: the `(i32, Option<Clause>)` pair, a
panic on a failed `unwrap`, or fuel exhaustion of the resolution loop. -/
inductive CAResult where
  | ok (b : Int) (c : Option Clause)
  | panicked
  | fuelOut
deriving DecidableEq, Repr

/-- `CdclSolver::conflict_analysis` (`solver.rs` lines 242–309). At
decision level 0 it returns `(-1, None)`. Otherwise it runs the resolution
loop, collects the distinct decision levels of the final clause's literals
into a sorted list (the Rust `HashSet<i32>` then `sort_unstable`), and
returns backjump level 0 when at most one distinct level remains, else the
second-largest level. -/
def CdclSolver.conflict_analysis (s : CdclSolver) (fuel : Nat) (clause : Clause) :
    CAResult :=
  if s.assignments.dl = 0 then CAResult.ok (-1) none
  else
    match filterAtLevel s.assignments s.assignments.dl clause.literals with
    | none => CAResult.panicked
    | some lits =>
      match caLoop s.assignments s.assignments.dl fuel clause lits with
      | CALoopRes.panicked => CAResult.panicked
      | CALoopRes.fuelOut => CAResult.fuelOut
      | CALoopRes.done current =>
        match dlList s.assignments current.literals with
        | none => CAResult.panicked
        | some ds =>
          if (List.insertionSort (· ≤ ·) ds.dedup).length ≤ 1 then
            CAResult.ok 0 (some current)
          else
            match (List.insertionSort (· ≤ ·) ds.dedup).reverse[1]? with
            | some b => CAResult.ok b (some current)
            | none => CAResult.panicked

/-- The `unassigned_variables` collection computed inside
`pick_branching_variable`: the formula's variables minus the assigned
ones. -/
def unassignedVars (s : CdclSolver) : List String :=
  s.formula.variables'.filter fun v => (s.assignments.get v).isNone

/-- `CdclSolver::pick_branching_variable` (`solver.rs` lines 207–219): a
random unassigned variable (with a random polarity supplied by the
caller's oracle). The random draw is modelled by an oracle index `i`
reduced modulo the number of unassigned variables; `none` models the
`unwrap` panic when none is unassigned. -/
def CdclSolver.pick_branching_variable (s : CdclSolver) (i : Nat) : Option String :=
  (unassignedVars s)[i % (unassignedVars s).length]?

/-- Exit of the inner conflict loop of `solve`: `ret` is the early
`return` (conflict analysis reported a negative backjump level), `brk`
is the `break` on a propagation fixpoint. -/
inductive InnerRes where
  | ret (s : CdclSolver)
  | brk (s : CdclSolver)
deriving DecidableEq, Repr

/-- The inner `loop` of `solve` (`solver.rs` lines 106–123): propagate;
on conflict, analyse, return if the backjump level is negative, else
append the learned clause, backtrack and repeat. `none` models fuel
exhaustion or a panic inside a callee. -/
def innerLoop (pfuel cafuel : Nat) : Nat → CdclSolver → Option InnerRes
  | 0, _ => none
  | fuel + 1, s =>
    match s.unit_propagation pfuel with
    | none => none
    | some ((UnitPropagationResult.Unresolved, _), s') => some (InnerRes.brk s')
    | some ((UnitPropagationResult.Conflict, none), _) => none
    | some ((UnitPropagationResult.Conflict, some k), s') =>
      match s'.conflict_analysis cafuel k with
      | CAResult.panicked => none
      | CAResult.fuelOut => none
      | CAResult.ok b learnt =>
        if b < 0 then some (InnerRes.ret s')
        else
          let s2 :=
            match learnt with
            | some l => s'.add_learned_clause l
            | none => s'
          let s3 := s2.backtrack b
          let s4 := { s3 with assignments := { s3.assignments with dl := b } }
          innerLoop pfuel cafuel fuel s4

/-- The `while !self.all_variables_assigned()` loop of `solve`
(`solver.rs` lines 99–124) followed by `self.sat = Satisfied`. The oracle
list supplies the random draws of `pick_branching_variable` (an index)
and the random polarity. -/
def solveLoop (pfuel cafuel ifuel : Nat) :
    Nat → List (Nat × Bool) → CdclSolver → Option CdclSolver
  | 0, _, _ => none
  | fuel + 1, choices, s =>
    if s.all_variables_assigned then some { s with sat := SolverResult.Satisfied }
    else
      match choices with
      | [] => none
      | (i, val) :: rest =>
        match s.pick_branching_variable i with
        | none => none
        | some var =>
          let a' := { s.assignments with dl := s.assignments.dl + 1 }
          let s' := { s with assignments := Assignments.assign a' var val none }
          match innerLoop pfuel cafuel ifuel s' with
          | none => none
          | some (InnerRes.ret s'') => some s''
          | some (InnerRes.brk s'') => solveLoop pfuel cafuel ifuel fuel rest s''

/-- `CdclSolver::solve` (`solver.rs` lines 93–126): initial propagation
(returning immediately on conflict, leaving `sat` as `Unresolved`), then
the decision loop. `none` models fuel exhaustion, oracle exhaustion or a
panic; `some s'` is normal termination with final state `s'`. -/
def CdclSolver.solve (s : CdclSolver) (pfuel cafuel ifuel fuel : Nat)
    (choices : List (Nat × Bool)) : Option CdclSolver :=
  match s.unit_propagation pfuel with
  | none => none
  | some ((UnitPropagationResult.Conflict, _), s') => some s'
  | some ((UnitPropagationResult.Unresolved, _), s') =>
    solveLoop pfuel cafuel ifuel fuel choices s'

/-! ### Semantics -/

/-- A clause is satisfied by a total assignment `M` iff some literal is
true under `M`. -/
def Satisfies (M : String → Bool) (c : Clause) : Prop :=
  ∃ l ∈ c.literals, M l.value = !l.negation

/-- `M` satisfies every clause of the list. -/
def SatisfiesAll (M : String → Bool) (cs : List Clause) : Prop :=
  ∀ c ∈ cs, Satisfies M c

/-- Semantic entailment: every model of the clause list satisfies `c`. -/
def Entails (cs : List Clause) (c : Clause) : Prop :=
  ∀ M : String → Bool, SatisfiesAll M cs → Satisfies M c

/-- One forced assignment inside `unit_propagation`: some clause of the
database is `Unit` under the trail, and its first unassigned literal's
variable is assigned `!negation` with that clause as antecedent at the
trail's current decision level. -/
def PropStep (cs : List Clause) (a a' : Assignments) : Prop :=
  ∃ c ∈ cs, ∃ lit : Literal, clauseStatus a c = ClauseStatus.Unit ∧
    firstUnassigned a c.literals = some lit ∧
    a' = a.assign lit.value (!lit.negation) (some c)

/-- A finite chain of unit-propagation steps. -/
inductive PropChain (cs : List Clause) : Assignments → Assignments → Prop where
  | refl (a : Assignments) : PropChain cs a a
  | step (a a' a'' : Assignments) (h : PropStep cs a a')
      (h' : PropChain cs a' a'') : PropChain cs a a''

/-- A one-clause fixture `{x}` for concrete propagation runs. -/
def upFixture : CdclSolver :=
  CdclSolver.new (Formula.new [Clause.new [Literal.new "x" false]])

/-- The state reached by propagating `upFixture`: `x ↦ true`, forced by
the unit clause at level 0. -/
def upFixtureResult : CdclSolver :=
  { upFixture with assignments :=
      (Assignments.mk
        [("x", Assignment.new true (some (Clause.new [Literal.new "x" false])) 0)]
        0) }

/-- Run-time invariant of the solver state with respect to the original
clause list `F0`: well-formed trail keys and variable sets, a clause
database entailed by `F0`, decision-level bookkeeping, soundness of the
stored antecedents, and semantic soundness of the trail (every model of
`F0` agreeing with the decisions up to level `k` agrees with the whole
trail up to level `k`). -/
structure Inv (F0 : List Clause) (s : CdclSolver) : Prop where
  keysNodup : (s.assignments.assignments.map Prod.fst).Nodup
  varsNodup : s.formula.variables'.Nodup
  keysVars : ∀ v ∈ s.assignments.assignments.map Prod.fst,
    v ∈ s.formula.variables'
  dbVars : ∀ c ∈ s.formula.clauses, ∀ l ∈ c.literals,
    l.value ∈ s.formula.variables'
  orig : F0 ⊆ s.formula.clauses
  dbEntails : ∀ c ∈ s.formula.clauses, Entails F0 c
  dlNonneg : 0 ≤ s.assignments.dl
  entryDl : ∀ (v : String) (asg : Assignment),
    s.assignments.get v = some asg → 0 ≤ asg.dl ∧ asg.dl ≤ s.assignments.dl
  decisionDl : ∀ (v : String) (asg : Assignment),
    s.assignments.get v = some asg → asg.antecedent = none → 1 ≤ asg.dl
  anteEntails : ∀ (v : String) (asg : Assignment) (A : Clause),
    s.assignments.get v = some asg → asg.antecedent = some A → Entails F0 A
  anteVars : ∀ (v : String) (asg : Assignment) (A : Clause),
    s.assignments.get v = some asg → asg.antecedent = some A →
    ∀ l ∈ A.literals, l.value ∈ s.formula.variables'
  anteSound : ∀ (v : String) (asg : Assignment) (A : Clause),
    s.assignments.get v = some asg → asg.antecedent = some A →
    (∃ litv, litv ∈ A.literals ∧ litv.value = v ∧
      asg.value = !litv.negation ∧ ∀ l ∈ A.literals, l.value = v → l = litv) ∧
    (∀ l ∈ A.literals, l.value ≠ v → ∃ asg',
      s.assignments.get l.value = some asg' ∧ asg'.value = l.negation ∧
      asg'.dl ≤ asg.dl)
  trailSound : ∀ M : String → Bool, SatisfiesAll M F0 →
    ∀ k : Int,
    (∀ (v : String) (asg : Assignment), s.assignments.get v = some asg →
      asg.antecedent = none → asg.dl ≤ k → M v = asg.value) →
    ∀ (v : String) (asg : Assignment), s.assignments.get v = some asg →
      asg.dl ≤ k → M v = asg.value

/-- The driver state after a conflict at level `DL > 0`: the learned
clause is appended, the trail is rewound, and `DL` is set to the backjump
level (`solver.rs` lines 117–121). -/
def afterBackjump (s : CdclSolver) (L : Clause) (β : Int) : CdclSolver :=
  let s3 := (s.add_learned_clause L).backtrack β
  { s3 with assignments := { s3.assignments with dl := β } }

/-- A fixture for the backjump claim: formula `{¬a ∨ b, ¬a ∨ ¬b}`, decision
`a = true` at level 1 forced `b = true`, and the second clause is in
conflict; analysis learns `¬a` with backjump level 0. -/
def c3Fixture : CdclSolver :=
  CdclSolver.mk
    (Formula.mk
      [Clause.new [Literal.new "a" true, Literal.new "b" false],
       Clause.new [Literal.new "a" true, Literal.new "b" true]]
      ["a", "b"])
    (Assignments.mk
      [("a", Assignment.new true none 1),
       ("b", Assignment.new true
         (some (Clause.new [Literal.new "a" true, Literal.new "b" false])) 1)]
      1)
    SolverResult.Unresolved

/-- The clause learned from the `c3Fixture` conflict. -/
def c3Learned : Clause := Clause.new [Literal.new "a" true]

/-- A fixture for conflict analysis: decision `a = true` at level 1 forced
`b = true` through the clause `¬a ∨ b`; the clause `¬a ∨ ¬b` is in
conflict. -/
def caFixture : CdclSolver :=
  CdclSolver.mk (Formula.mk [] [])
    (Assignments.mk
      [("a", Assignment.new true none 1),
       ("b", Assignment.new true
         (some (Clause.new [Literal.new "a" true, Literal.new "b" false])) 1)]
      1)
    SolverResult.Unresolved

/-- The conflict clause `¬a ∨ ¬b` for `caFixture`. -/
def caConflictClause : Clause :=
  Clause.new [Literal.new "a" true, Literal.new "b" true]

/-- A two-entry trail fixture used to evaluate concrete runs. -/
def sampleTrailSolver : CdclSolver :=
  CdclSolver.mk (Formula.mk [] ["x", "y"])
    (Assignments.mk [("x", Assignment.new true none 0),
      ("y", Assignment.new false none 1)] 1)
    SolverResult.Unresolved

/-- An unsatisfiable fixture: the clauses `{x}` and `{¬x}`. -/
def c2Fix : List Clause :=
  [Clause.new [Literal.new "x" false], Clause.new [Literal.new "x" true]]

/-- The state in which `solve` on `c2Fix` terminates: the initial
propagation forces `x ↦ true` from the first clause and then reports the
second clause as a conflict, leaving the verdict `Unresolved`. -/
def c2FixResult : CdclSolver :=
  CdclSolver.mk (Formula.new c2Fix)
    (Assignments.mk
      [("x", Assignment.new true (some (Clause.new [Literal.new "x" false])) 0)]
      0)
    SolverResult.Unresolved

/-! ### Association-list lemmas -/

theorem lookupAssoc_insert_self :
    ∀ (l : List (String × Assignment)) (k : String) (v : Assignment),
    lookupAssoc (insertAssoc l k v) k = some v
  | [], k, v => by simp [insertAssoc, lookupAssoc]
  | (k0, v0) :: tl, k, v => by
    by_cases h : k0 = k
    · simp [insertAssoc, h, lookupAssoc]
    · simp [insertAssoc, h, lookupAssoc, lookupAssoc_insert_self tl k v]

theorem lookupAssoc_insert_other :
    ∀ (l : List (String × Assignment)) (k k' : String) (v : Assignment),
    k' ≠ k → lookupAssoc (insertAssoc l k v) k' = lookupAssoc l k'
  | [], k, k', v, h => by simp [insertAssoc, lookupAssoc, Ne.symm h]
  | (k0, v0) :: tl, k, k', v, h => by
    by_cases h1 : k0 = k
    · subst h1
      simp [insertAssoc, lookupAssoc, Ne.symm h]
    · by_cases h2 : k0 = k'
      · simp [insertAssoc, h1, lookupAssoc, h2, h]
      · simp [insertAssoc, h1, lookupAssoc, h2,
          lookupAssoc_insert_other tl k k' v h]

theorem lookupAssoc_eq_none :
    ∀ (l : List (String × Assignment)) (k : String),
    k ∉ l.map Prod.fst → lookupAssoc l k = none
  | [], _, _ => rfl
  | (k0, v0) :: tl, k, h => by
    simp only [List.map_cons, List.mem_cons] at h
    push_neg at h
    simp [lookupAssoc, Ne.symm h.1, lookupAssoc_eq_none tl k h.2]

theorem lookupAssoc_mem_keys :
    ∀ (l : List (String × Assignment)) (k : String) (v : Assignment),
    lookupAssoc l k = some v → k ∈ l.map Prod.fst
  | [], k, v, h => by simp [lookupAssoc] at h
  | (k0, v0) :: tl, k, v, h => by
    by_cases h1 : k0 = k
    · simp [h1]
    · simp only [lookupAssoc, if_neg h1] at h
      simp [lookupAssoc_mem_keys tl k v h]

theorem insertAssoc_keys_sub :
    ∀ (l : List (String × Assignment)) (k : String) (v : Assignment)
      (k' : String), k' ∈ (insertAssoc l k v).map Prod.fst →
      k' = k ∨ k' ∈ l.map Prod.fst
  | [], k, v, k' => by simp [insertAssoc]
  | (k0, v0) :: tl, k, v, k' => by
    intro hmem
    by_cases h : k0 = k
    · simp only [insertAssoc, if_pos h, List.map_cons, List.mem_cons] at hmem
      rcases hmem with h1 | h1
      · exact Or.inl h1
      · exact Or.inr (by simp [h1])
    · simp only [insertAssoc, if_neg h, List.map_cons, List.mem_cons] at hmem
      rcases hmem with h1 | h1
      · exact Or.inr (by simp [h1])
      · rcases insertAssoc_keys_sub tl k v k' h1 with h2 | h2
        · exact Or.inl h2
        · exact Or.inr (by simp [h2])

theorem insertAssoc_keys_nodup (l : List (String × Assignment)) (k : String)
    (v : Assignment) (h : (l.map Prod.fst).Nodup) :
    ((insertAssoc l k v).map Prod.fst).Nodup := by
  induction l with
  | nil => simp [insertAssoc]
  | cons hd tl ih =>
    rcases hd with ⟨k0, v0⟩
    simp only [List.map_cons, List.nodup_cons] at h
    by_cases h1 : k0 = k
    · subst h1
      have he : insertAssoc ((k0, v0) :: tl) k0 v = (k0, v) :: tl := by
        simp [insertAssoc]
      rw [he]
      simp only [List.map_cons, List.nodup_cons]
      exact ⟨h.1, h.2⟩
    · simp only [insertAssoc, if_neg h1, List.map_cons, List.nodup_cons]
      refine ⟨?_, ih h.2⟩
      intro hmem
      rcases insertAssoc_keys_sub tl k v k0 hmem with h2 | h2
      · exact h1 h2
      · exact h.1 h2

theorem lookupAssoc_filter (p : String × Assignment → Bool) :
    ∀ (l : List (String × Assignment)) (k : String) (v : Assignment),
    (l.map Prod.fst).Nodup →
    (lookupAssoc (l.filter p) k = some v ↔
      lookupAssoc l k = some v ∧ p (k, v) = true)
  | [], k, v, _ => by simp [lookupAssoc]
  | (k0, v0) :: tl, k, v, hnd => by
    simp only [List.map_cons, List.nodup_cons] at hnd
    by_cases h1 : k0 = k
    · subst h1
      by_cases h2 : p (k0, v0)
      · rw [List.filter_cons_of_pos h2]
        simp only [lookupAssoc, if_pos rfl]
        constructor
        · intro h3
          injection h3 with h3
          subst h3
          exact ⟨rfl, h2⟩
        · rintro ⟨h3, _⟩
          exact h3
      · rw [List.filter_cons_of_neg h2]
        have hnone : lookupAssoc (tl.filter p) k0 = none := by
          apply lookupAssoc_eq_none
          intro hmem
          apply hnd.1
          rcases List.mem_map.mp hmem with ⟨q, hq, hfst⟩
          exact List.mem_map.mpr ⟨q, List.mem_of_mem_filter hq, hfst⟩
        rw [hnone]
        simp only [lookupAssoc, if_pos rfl]
        constructor
        · intro h3; cases h3
        · rintro ⟨h3, h4⟩
          injection h3 with h3
          subst h3
          exact absurd h4 h2
    · by_cases h2 : p (k0, v0)
      · rw [List.filter_cons_of_pos h2]
        simp only [lookupAssoc, if_neg h1]
        exact lookupAssoc_filter p tl k v hnd.2
      · rw [List.filter_cons_of_neg h2]
        simp only [lookupAssoc, if_neg h1]
        exact lookupAssoc_filter p tl k v hnd.2

/-! ### Literal and clause status lemmas -/

/-- A literal whose variable has no trail record. -/
def isUnassigned (a : Assignments) (l : Literal) : Bool :=
  (a.get l.value).isNone

theorem isFalseLit_iff (a : Assignments) (l : Literal) :
    isFalseLit a l = true ↔
      ∃ asg, a.get l.value = some asg ∧ asg.value = l.negation := by
  unfold isFalseLit
  cases h : a.get l.value with
  | none => simp
  | some asg => simp [beq_iff_eq]

theorem isTrueLit_iff (a : Assignments) (l : Literal) :
    isTrueLit a l = true ↔
      ∃ asg, a.get l.value = some asg ∧ asg.value = !l.negation := by
  unfold isTrueLit
  cases h : a.get l.value with
  | none => simp
  | some asg =>
    simp only [Option.some.injEq, exists_eq_left']
    cases asg.value <;> cases l.negation <;> simp

theorem lit_status_trichotomy (a : Assignments) (l : Literal) :
    (isFalseLit a l = true ∧ isTrueLit a l = false ∧ isUnassigned a l = false) ∨
    (isFalseLit a l = false ∧ isTrueLit a l = true ∧ isUnassigned a l = false) ∨
    (isFalseLit a l = false ∧ isTrueLit a l = false ∧ isUnassigned a l = true) := by
  unfold isFalseLit isTrueLit isUnassigned
  cases h : a.get l.value with
  | none => right; right; simp
  | some asg =>
    by_cases hv : asg.value = l.negation
    · left; simp [hv]
    · right; left; simp [hv, bne_iff_ne]

theorem count_partition (a : Assignments) (lits : List Literal) :
    lits.countP (isFalseLit a) + lits.countP (isTrueLit a) +
      lits.countP (isUnassigned a) = lits.length := by
  induction lits with
  | nil => simp
  | cons l ls ih =>
    simp only [List.countP_cons, List.length_cons]
    rcases lit_status_trichotomy a l with ⟨h1, h2, h3⟩ | ⟨h1, h2, h3⟩ | ⟨h1, h2, h3⟩ <;>
      simp [h1, h2, h3] <;> omega

theorem countP_unassigned_eq (a : Assignments) (lits : List Literal) :
    lits.countP (isUnassigned a) =
      lits.length - lits.countP (isFalseLit a) - lits.countP (isTrueLit a) := by
  have := count_partition a lits
  omega

/-- `clause_status` with the machine-integer comparisons normalised: the
first two tests are over the natural-number counts, the `Unit` test stays
over `Int` (it is vacuous for the empty clause, as in the source). -/
theorem clauseStatus_eq (a : Assignments) (c : Clause) :
    clauseStatus a c =
      (if 0 < c.literals.countP (isTrueLit a) then ClauseStatus.Satisfied
       else if c.literals.countP (isFalseLit a) = c.literals.length then
         ClauseStatus.Unsatisfied
       else if (c.literals.countP (isFalseLit a) : Int) =
           (c.literals.length : Int) - 1 then ClauseStatus.Unit
       else ClauseStatus.Unresolved) := by
  simp only [clauseStatus]
  norm_cast

theorem status_eq_satisfied_iff (a : Assignments) (c : Clause) :
    clauseStatus a c = ClauseStatus.Satisfied ↔
      ∃ l ∈ c.literals, isTrueLit a l = true := by
  rw [clauseStatus_eq, ← List.countP_pos_iff]
  by_cases h : 0 < c.literals.countP (isTrueLit a)
  · simp [h]
  · rw [if_neg h]
    constructor
    · intro hcon
      exfalso
      split at hcon
      · cases hcon
      · split at hcon
        · cases hcon
        · cases hcon
    · intro hcon
      exact absurd hcon h

theorem status_eq_unsat_iff (a : Assignments) (c : Clause) :
    clauseStatus a c = ClauseStatus.Unsatisfied ↔
      ∀ l ∈ c.literals, isFalseLit a l = true := by
  rw [clauseStatus_eq, ← List.countP_eq_length]
  by_cases h1 : 0 < c.literals.countP (isTrueLit a)
  · rw [if_pos h1]
    constructor
    · intro hcon; cases hcon
    · intro hall
      exfalso
      rcases List.countP_pos_iff.mp h1 with ⟨l, hl, hlt⟩
      rcases lit_status_trichotomy a l with ⟨_, h2, _⟩ | ⟨h2, _, _⟩ | ⟨_, h2, _⟩
      · rw [hlt] at h2; cases h2
      · have hf := List.countP_eq_length.mp hall l hl
        rw [hf] at h2; cases h2
      · rw [hlt] at h2; cases h2
  · rw [if_neg h1]
    by_cases h2 : c.literals.countP (isFalseLit a) = c.literals.length
    · simp [h2]
    · rw [if_neg h2]
      constructor
      · intro hcon
        exfalso
        split at hcon
        · cases hcon
        · cases hcon
      · intro h
        exact absurd h h2

theorem status_eq_unit_iff (a : Assignments) (c : Clause) :
    clauseStatus a c = ClauseStatus.Unit ↔
      (∀ l ∈ c.literals, isTrueLit a l = false) ∧
        c.literals.countP (isUnassigned a) = 1 := by
  have hpart := count_partition a c.literals
  rw [clauseStatus_eq]
  constructor
  · intro h
    by_cases h1 : 0 < c.literals.countP (isTrueLit a)
    · rw [if_pos h1] at h; cases h
    · rw [if_neg h1] at h
      by_cases h2 : c.literals.countP (isFalseLit a) = c.literals.length
      · rw [if_pos h2] at h; cases h
      · rw [if_neg h2] at h
        by_cases h3 : (c.literals.countP (isFalseLit a) : Int) =
            (c.literals.length : Int) - 1
        · have htc0 : c.literals.countP (isTrueLit a) = 0 := by omega
          refine ⟨?_, by omega⟩
          intro l hl
          by_contra hl2
          have : 0 < c.literals.countP (isTrueLit a) :=
            List.countP_pos_iff.mpr ⟨l, hl, by simpa using hl2⟩
          omega
        · rw [if_neg h3] at h; cases h
  · rintro ⟨htrue, hcu⟩
    have htc0 : c.literals.countP (isTrueLit a) = 0 := by
      rw [List.countP_eq_zero]
      intro l hl
      simp [htrue l hl]
    rw [if_neg (by omega), if_neg (by omega), if_pos (by omega)]

theorem firstUnassigned_mem (a : Assignments) :
    ∀ (lits : List Literal) (lit : Literal),
    firstUnassigned a lits = some lit → lit ∈ lits ∧ a.get lit.value = none
  | [], lit, h => by simp [firstUnassigned] at h
  | l :: ls, lit, h => by
    simp only [firstUnassigned] at h
    split at h
    · rcases firstUnassigned_mem a ls lit h with ⟨h1, h2⟩
      exact ⟨List.mem_cons_of_mem _ h1, h2⟩
    · injection h with h
      subst h
      rename_i hg
      exact ⟨List.mem_cons_self _ _, hg⟩

theorem firstUnassigned_eq_none (a : Assignments) :
    ∀ lits : List Literal,
    firstUnassigned a lits = none ↔ ∀ l ∈ lits, (a.get l.value).isSome
  | [] => by simp [firstUnassigned]
  | l :: ls => by
    simp only [firstUnassigned]
    cases hg : a.get l.value with
    | some asg =>
      rw [firstUnassigned_eq_none a ls]
      constructor
      · intro h l' hl'
        rcases List.mem_cons.mp hl' with h1 | h1
        · subst h1; simp [hg]
        · exact h l' h1
      · intro h l' hl'
        exact h l' (List.mem_cons_of_mem _ hl')
    | none =>
      constructor
      · intro h; cases h
      · intro h
        have h2 := h l (List.mem_cons_self _ _)
        rw [hg] at h2
        cases h2

theorem firstUnassigned_some_of_unassigned (a : Assignments) (lits : List Literal)
    (l : Literal) (hl : l ∈ lits) (hu : a.get l.value = none) :
    ∃ lit, firstUnassigned a lits = some lit := by
  cases hf : firstUnassigned a lits with
  | some lit => exact ⟨lit, rfl⟩
  | none =>
    have h2 := (firstUnassigned_eq_none a lits).mp hf l hl
    rw [hu] at h2
    cases h2

theorem firstUnassigned_unique (a : Assignments) :
    ∀ (lits : List Literal) (lit : Literal),
    lits.countP (isUnassigned a) = 1 → firstUnassigned a lits = some lit →
    ∀ l ∈ lits, a.get l.value = none → l = lit
  | [], lit, hc, hf => by simp [firstUnassigned] at hf
  | x :: ls, lit, hc, hf => by
    intro l hl hlu
    rw [List.countP_cons] at hc
    cases hg : a.get x.value with
    | none =>
      have hx : firstUnassigned a (x :: ls) = some x := by
        simp [firstUnassigned, hg]
      rw [hf] at hx
      injection hx with hx
      have hux : isUnassigned a x = true := by simp [isUnassigned, hg]
      rw [hux] at hc
      rw [if_pos rfl] at hc
      have hls : ls.countP (isUnassigned a) = 0 := by omega
      rcases List.mem_cons.mp hl with h1 | h1
      · rw [h1, hx]
      · exfalso
        have hlT : isUnassigned a l = true := by simp [isUnassigned, hlu]
        have := List.countP_pos_iff.mpr ⟨l, h1, hlT⟩
        omega
    | some asg =>
      have hux : isUnassigned a x = false := by simp [isUnassigned, hg]
      rw [hux] at hc
      rw [if_neg (by simp)] at hc
      have hfs : firstUnassigned a (x :: ls) = firstUnassigned a ls := by
        simp [firstUnassigned, hg]
      rw [hfs] at hf
      rcases List.mem_cons.mp hl with h1 | h1
      · exfalso
        rw [h1, hg] at hlu
        cases hlu
      · exact firstUnassigned_unique a ls lit (by omega) hf l h1 hlu

/-- A clause with `Unit` status has a (first) unassigned literal; it is
the unique unassigned occurrence, every occurrence of its variable is that
literal, and every other occurrence is false. -/
theorem unit_clause_structure (a : Assignments) (c : Clause)
    (h : clauseStatus a c = ClauseStatus.Unit) :
    ∃ lit, firstUnassigned a c.literals = some lit ∧ lit ∈ c.literals ∧
      a.get lit.value = none ∧
      (∀ l ∈ c.literals, a.get l.value = none → l = lit) ∧
      (∀ l ∈ c.literals, l.value = lit.value → l = lit) ∧
      (∀ l ∈ c.literals, l.value ≠ lit.value → isFalseLit a l = true) := by
  rcases (status_eq_unit_iff a c).mp h with ⟨htrue, hcu⟩
  have hex : ∃ l ∈ c.literals, isUnassigned a l = true :=
    List.countP_pos_iff.mp (by omega)
  rcases hex with ⟨l0, hl0, hl0u⟩
  have hl0n : a.get l0.value = none := by
    simpa [isUnassigned, Option.isNone_iff_eq_none] using hl0u
  rcases firstUnassigned_some_of_unassigned a c.literals l0 hl0 hl0n with ⟨lit, hf⟩
  rcases firstUnassigned_mem a c.literals lit hf with ⟨hmem, hnone⟩
  have huniq := firstUnassigned_unique a c.literals lit hcu hf
  refine ⟨lit, hf, hmem, hnone, huniq, ?_, ?_⟩
  · intro l hl hv
    apply huniq l hl
    rw [hv]
    exact hnone
  · intro l hl hv
    rcases lit_status_trichotomy a l with ⟨h1, _, _⟩ | ⟨_, h2, _⟩ | ⟨_, _, h3⟩
    · exact h1
    · rw [htrue l hl] at h2; cases h2
    · exfalso
      apply hv
      have hnl : a.get l.value = none := by
        simpa [isUnassigned, Option.isNone_iff_eq_none] using h3
      rw [huniq l hl hnl]

theorem get_assign_self (a : Assignments) (v : String) (val : Bool)
    (ant : Option Clause) :
    (a.assign v val ant).get v = some (Assignment.new val ant a.dl) :=
  lookupAssoc_insert_self _ _ _

theorem get_assign_other (a : Assignments) (v w : String) (val : Bool)
    (ant : Option Clause) (h : w ≠ v) :
    (a.assign v val ant).get w = a.get w :=
  lookupAssoc_insert_other _ _ _ _ h

theorem assign_dl (a : Assignments) (v : String) (val : Bool)
    (ant : Option Clause) : (a.assign v val ant).dl = a.dl := rfl

theorem assign_keys_nodup (a : Assignments) (v : String) (val : Bool)
    (ant : Option Clause) (h : (a.assignments.map Prod.fst).Nodup) :
    ((a.assign v val ant).assignments.map Prod.fst).Nodup :=
  insertAssoc_keys_nodup _ _ _ h

/-- Assigning a previously unassigned variable preserves every existing
record. -/
theorem get_assign_mono (a : Assignments) (v w : String) (val : Bool)
    (ant : Option Clause) (asg : Assignment) (hv : a.get v = none)
    (hw : a.get w = some asg) : (a.assign v val ant).get w = some asg := by
  by_cases h : w = v
  · subst h
    rw [hv] at hw
    cases hw
  · rw [get_assign_other a v w val ant h]; exact hw

end Cdcl

namespace Cdcl

theorem backtrack_get (s : CdclSolver) (b : Int)
    (hnd : (s.assignments.assignments.map Prod.fst).Nodup) (v : String)
    (asg : Assignment) :
    (s.backtrack b).assignments.get v = some asg ↔
      s.assignments.get v = some asg ∧ asg.dl ≤ b := by
  show lookupAssoc (s.assignments.assignments.filter _) v = some asg ↔ _
  rw [lookupAssoc_filter _ _ _ _ hnd]
  constructor
  · rintro ⟨h1, h2⟩
    refine ⟨h1, ?_⟩
    have h3 : ¬ asg.dl > b := of_decide_eq_true h2
    omega
  · rintro ⟨h1, h2⟩
    exact ⟨h1, decide_eq_true (show ¬ asg.dl > b by omega)⟩

theorem backtrack_formula (s : CdclSolver) (b : Int) :
    (s.backtrack b).formula = s.formula := rfl

theorem backtrack_dl (s : CdclSolver) (b : Int) :
    (s.backtrack b).assignments.dl = s.assignments.dl := rfl

theorem backtrack_keys_nodup (s : CdclSolver) (b : Int)
    (hnd : (s.assignments.assignments.map Prod.fst).Nodup) :
    ((s.backtrack b).assignments.assignments.map Prod.fst).Nodup := by
  show ((s.assignments.assignments.filter _).map Prod.fst).Nodup
  exact ((List.filter_sublist s.assignments.assignments).map Prod.fst).nodup hnd

theorem resolve_mem (A B : Clause) (x : String) (l : Literal) :
    l ∈ (CdclSolver.resolve A B x).literals ↔
      ((l ∈ A.literals ∨ l ∈ B.literals) ∧
        l ≠ Literal.new x true ∧ l ≠ Literal.new x false) := by
  simp [CdclSolver.resolve, Clause.new, List.mem_filter, List.mem_dedup,
    List.mem_append, decide_eq_true_iff]

theorem status_eq_unit_iff_counts (a : Assignments) (c : Clause) :
    clauseStatus a c = ClauseStatus.Unit ↔
      ¬ 0 < c.literals.countP (isTrueLit a) ∧
        c.literals.countP (isFalseLit a) ≠ c.literals.length ∧
        (c.literals.countP (isFalseLit a) : Int) = (c.literals.length : Int) - 1 := by
  rw [clauseStatus_eq]
  by_cases h1 : 0 < c.literals.countP (isTrueLit a)
  · rw [if_pos h1]
    simp [h1]
  · rw [if_neg h1]
    by_cases h2 : c.literals.countP (isFalseLit a) = c.literals.length
    · rw [if_pos h2]
      simp [h1, h2]
    · rw [if_neg h2]
      by_cases h3 : (c.literals.countP (isFalseLit a) : Int) =
          (c.literals.length : Int) - 1
      · rw [if_pos h3]
        simp [h1, h2, h3]
      · rw [if_neg h3]
        simp [h1, h2, h3]

theorem status_eq_unresolved_iff_counts (a : Assignments) (c : Clause) :
    clauseStatus a c = ClauseStatus.Unresolved ↔
      ¬ 0 < c.literals.countP (isTrueLit a) ∧
        c.literals.countP (isFalseLit a) ≠ c.literals.length ∧
        (c.literals.countP (isFalseLit a) : Int) ≠ (c.literals.length : Int) - 1 := by
  rw [clauseStatus_eq]
  by_cases h1 : 0 < c.literals.countP (isTrueLit a)
  · rw [if_pos h1]
    simp [h1]
  · rw [if_neg h1]
    by_cases h2 : c.literals.countP (isFalseLit a) = c.literals.length
    · rw [if_pos h2]
      simp [h1, h2]
    · rw [if_neg h2]
      by_cases h3 : (c.literals.countP (isFalseLit a) : Int) =
          (c.literals.length : Int) - 1
      · rw [if_pos h3]
        simp [h1, h2, h3]
      · rw [if_neg h3]
        simp [h1, h2, h3]

theorem all_false_of_unsat (a : Assignments) (c : Clause)
    (h : clauseStatus a c = ClauseStatus.Unsatisfied) :
    ∀ l ∈ c.literals, isFalseLit a l = true :=
  (status_eq_unsat_iff a c).mp h

theorem no_true_of_all_false (a : Assignments) (c : Clause)
    (h : ∀ l ∈ c.literals, isFalseLit a l = true) :
    ¬ ∃ l ∈ c.literals, isTrueLit a l = true := by
  rintro ⟨l, hl, hlt⟩
  rcases lit_status_trichotomy a l with ⟨_, h2, _⟩ | ⟨h2, _, _⟩ | ⟨_, h2, _⟩
  · rw [hlt] at h2; cases h2
  · rw [h l hl] at h2; cases h2
  · rw [hlt] at h2; cases h2

end Cdcl

namespace Cdcl

/-! ### Claim theorems -/

/-- C5: for every clause and trail, `clause_status` returns `Satisfied` iff
some literal is true; otherwise `Unsatisfied` iff every literal occurrence
is false; otherwise `Unit` iff `false_count = |C| - 1`; otherwise
`Unresolved`. A clause that is simultaneously satisfied and unit-like is
classified `Satisfied`. -/
theorem clause_status_classification (s : CdclSolver) (c : Clause) :
    (s.clause_status c = ClauseStatus.Satisfied ↔
      ∃ l ∈ c.literals, isTrueLit s.assignments l = true) ∧
    (s.clause_status c = ClauseStatus.Unsatisfied ↔
      (¬ ∃ l ∈ c.literals, isTrueLit s.assignments l = true) ∧
        ∀ l ∈ c.literals, isFalseLit s.assignments l = true) ∧
    (s.clause_status c = ClauseStatus.Unit ↔
      (¬ ∃ l ∈ c.literals, isTrueLit s.assignments l = true) ∧
        (¬ ∀ l ∈ c.literals, isFalseLit s.assignments l = true) ∧
        (c.literals.countP (isFalseLit s.assignments) : Int) =
          (c.literals.length : Int) - 1) ∧
    (s.clause_status c = ClauseStatus.Unresolved ↔
      (¬ ∃ l ∈ c.literals, isTrueLit s.assignments l = true) ∧
        (¬ ∀ l ∈ c.literals, isFalseLit s.assignments l = true) ∧
        (c.literals.countP (isFalseLit s.assignments) : Int) ≠
          (c.literals.length : Int) - 1) ∧
    (∀ l : Literal, isTrueLit s.assignments l = true →
      s.clause_status (Clause.new [l]) = ClauseStatus.Satisfied) := by
  have hex : (∃ l ∈ c.literals, isTrueLit s.assignments l = true) ↔
      0 < c.literals.countP (isTrueLit s.assignments) := List.countP_pos_iff.symm
  have hall : (∀ l ∈ c.literals, isFalseLit s.assignments l = true) ↔
      c.literals.countP (isFalseLit s.assignments) = c.literals.length :=
    List.countP_eq_length.symm
  refine ⟨?_, ?_, ?_, ?_, ?_⟩
  · exact status_eq_satisfied_iff s.assignments c
  · rw [show s.clause_status c = clauseStatus s.assignments c from rfl,
      status_eq_unsat_iff]
    constructor
    · intro h
      exact ⟨no_true_of_all_false _ _ h, h⟩
    · rintro ⟨_, h⟩
      exact h
  · rw [show s.clause_status c = clauseStatus s.assignments c from rfl,
      status_eq_unit_iff_counts, hex, hall]
  · rw [show s.clause_status c = clauseStatus s.assignments c from rfl,
      status_eq_unresolved_iff_counts, hex, hall]
  · intro l hl
    rw [show s.clause_status (Clause.new [l]) =
        clauseStatus s.assignments (Clause.new [l]) from rfl,
      status_eq_satisfied_iff]
    exact ⟨l, List.mem_singleton_self l, hl⟩

/-- C7: the literal set of `resolve(A, B, x)` is the union of the literal
sets of `A` and `B` with both polarities of `x` removed; in particular
`resolve(A, A, x)` is `A` with both polarities of `x` removed. -/
theorem resolve_set_semantics :
    (∀ (A B : Clause) (x : String) (l : Literal),
      l ∈ (CdclSolver.resolve A B x).literals ↔
        ((l ∈ A.literals ∨ l ∈ B.literals) ∧
          l ≠ Literal.new x true ∧ l ≠ Literal.new x false)) ∧
    (∀ (A : Clause) (x : String) (l : Literal),
      l ∈ (CdclSolver.resolve A A x).literals ↔
        (l ∈ A.literals ∧ l ≠ Literal.new x true ∧ l ≠ Literal.new x false)) := by
  refine ⟨resolve_mem, fun A x l => ?_⟩
  rw [resolve_mem A A x l, or_self]

/-- C8: `backtrack(b)` removes exactly the trail entries with `dl > b`:
afterwards no entry has `dl > b`, every entry with `dl ≤ b` is unchanged,
nothing new appears, and the formula (clause database and variable set)
is untouched. -/
theorem backtrack_removes_exactly (s : CdclSolver) (b : Int)
    (hnd : (s.assignments.assignments.map Prod.fst).Nodup) :
    (∀ v asg, (s.backtrack b).assignments.get v = some asg → asg.dl ≤ b) ∧
    (∀ v asg, s.assignments.get v = some asg → asg.dl ≤ b →
      (s.backtrack b).assignments.get v = some asg) ∧
    (∀ v asg, (s.backtrack b).assignments.get v = some asg →
      s.assignments.get v = some asg) ∧
    (s.backtrack b).formula = s.formula := by
  refine ⟨?_, ?_, ?_, rfl⟩
  · intro v asg h
    exact ((backtrack_get s b hnd v asg).mp h).2
  · intro v asg h1 h2
    exact (backtrack_get s b hnd v asg).mpr ⟨h1, h2⟩
  · intro v asg h
    exact ((backtrack_get s b hnd v asg).mp h).1

theorem backtrack_removes_exactly_witness :
    ((sampleTrailSolver.assignments.assignments.map Prod.fst).Nodup) ∧
      ((∀ v asg, (sampleTrailSolver.backtrack 0).assignments.get v = some asg →
          asg.dl ≤ 0) ∧
        (∀ v asg, sampleTrailSolver.assignments.get v = some asg → asg.dl ≤ 0 →
          (sampleTrailSolver.backtrack 0).assignments.get v = some asg) ∧
        (∀ v asg, (sampleTrailSolver.backtrack 0).assignments.get v = some asg →
          sampleTrailSolver.assignments.get v = some asg) ∧
        (sampleTrailSolver.backtrack 0).formula = sampleTrailSolver.formula) :=
  ⟨by decide, backtrack_removes_exactly sampleTrailSolver 0 (by decide)⟩

/-- C10: `Assignments::assign` performs no precondition check: calling it
on an already-assigned variable silently replaces the existing record with
a new record (given value, antecedent, current decision level). -/
theorem assign_no_precondition_check (a : Assignments) (v : String)
    (asg0 : Assignment) (h : a.get v = some asg0) (val : Bool)
    (ant : Option Clause) :
    (a.assign v val ant).get v = some (Assignment.new val ant a.dl) :=
  get_assign_self a v val ant

theorem assign_no_precondition_check_witness :
    ((Assignments.mk [("x", Assignment.new true none 0)] 5).get "x" =
        some (Assignment.new true none 0)) ∧
      ((Assignments.mk [("x", Assignment.new true none 0)] 5).assign "x" false
          (some (Clause.new []))).get "x" =
        some (Assignment.new false (some (Clause.new [])) 5) :=
  ⟨by decide, assign_no_precondition_check
    (Assignments.mk [("x", Assignment.new true none 0)] 5) "x"
    (Assignment.new true none 0) (by decide) false (some (Clause.new []))⟩

end Cdcl

namespace Cdcl

theorem propChain_trans {cs : List Clause} {a a' a'' : Assignments}
    (h1 : PropChain cs a a') : PropChain cs a' a'' → PropChain cs a a'' := by
  induction h1 with
  | refl _ => exact id
  | step x y z hs _ ih =>
    intro h2
    exact PropChain.step x y a'' hs (ih h2)

theorem propStep_dl {cs : List Clause} {a a' : Assignments}
    (h : PropStep cs a a') : a'.dl = a.dl := by
  rcases h with ⟨c, _, lit, _, _, ha⟩
  rw [ha]
  rfl

theorem propChain_dl {cs : List Clause} {a a' : Assignments}
    (h : PropChain cs a a') : a'.dl = a.dl := by
  induction h with
  | refl _ => rfl
  | step x y z hs _ ih => rw [ih, propStep_dl hs]

theorem propStep_get_mono {cs : List Clause} {a a' : Assignments}
    (h : PropStep cs a a') {v : String} {asg : Assignment}
    (hv : a.get v = some asg) : a'.get v = some asg := by
  rcases h with ⟨c, _, lit, _, hf, ha⟩
  rcases firstUnassigned_mem a c.literals lit hf with ⟨_, hnone⟩
  rw [ha]
  exact get_assign_mono a lit.value v _ _ asg hnone hv

theorem propChain_get_mono {cs : List Clause} {a a' : Assignments}
    (h : PropChain cs a a') {v : String} {asg : Assignment}
    (hv : a.get v = some asg) : a'.get v = some asg := by
  induction h with
  | refl _ => exact hv
  | step x y z hs _ ih => exact ih (propStep_get_mono hs hv)

theorem propStep_keys_nodup {cs : List Clause} {a a' : Assignments}
    (h : PropStep cs a a') (hnd : (a.assignments.map Prod.fst).Nodup) :
    (a'.assignments.map Prod.fst).Nodup := by
  rcases h with ⟨c, _, lit, _, _, ha⟩
  rw [ha]
  exact assign_keys_nodup a _ _ _ hnd

theorem propChain_keys_nodup {cs : List Clause} {a a' : Assignments}
    (h : PropChain cs a a') (hnd : (a.assignments.map Prod.fst).Nodup) :
    (a'.assignments.map Prod.fst).Nodup := by
  induction h with
  | refl _ => exact hnd
  | step x y z hs _ ih => exact ih (propStep_keys_nodup hs hnd)

theorem scanClauses_conflict_spec (allcs : List Clause) :
    ∀ (cs : List Clause) (a : Assignments) (fin : Bool) (c : Clause)
      (a' : Assignments),
    scanClauses a fin cs = ScanResult.conflict c a' → cs ⊆ allcs →
    PropChain allcs a a' ∧ c ∈ cs ∧ clauseStatus a' c = ClauseStatus.Unsatisfied
  | [], a, fin, c, a', h => by simp [scanClauses] at h
  | cl :: rest, a, fin, c, a', h => by
    intro hsub
    have hsubr : rest ⊆ allcs := fun x hx => hsub (List.mem_cons_of_mem _ hx)
    simp only [scanClauses] at h
    split at h
    · rcases scanClauses_conflict_spec allcs rest a fin c a' h hsubr with
        ⟨h1, h2, h3⟩
      exact ⟨h1, List.mem_cons_of_mem _ h2, h3⟩
    · rcases scanClauses_conflict_spec allcs rest a fin c a' h hsubr with
        ⟨h1, h2, h3⟩
      exact ⟨h1, List.mem_cons_of_mem _ h2, h3⟩
    · rename_i hstatus
      injection h with hc ha
      subst hc
      subst ha
      exact ⟨PropChain.refl a, List.mem_cons_self _ _, hstatus⟩
    · rename_i hstatus
      split at h
      · rename_i lit hf
        have hstep : PropStep allcs a
            (a.assign lit.value (!lit.negation) (some cl)) :=
          ⟨cl, hsub (List.mem_cons_self _ _), lit, hstatus, hf, rfl⟩
        rcases scanClauses_conflict_spec allcs rest _ false c a' h hsubr with
          ⟨h1, h2, h3⟩
        exact ⟨PropChain.step _ _ _ hstep h1, List.mem_cons_of_mem _ h2, h3⟩
      · rcases scanClauses_conflict_spec allcs rest a false c a' h hsubr with
          ⟨h1, h2, h3⟩
        exact ⟨h1, List.mem_cons_of_mem _ h2, h3⟩

theorem scanClauses_done_spec (allcs : List Clause) :
    ∀ (cs : List Clause) (a : Assignments) (fin fin' : Bool)
      (a' : Assignments),
    scanClauses a fin cs = ScanResult.done fin' a' → cs ⊆ allcs →
    PropChain allcs a a' ∧
      (fin' = true → fin = true ∧ a' = a ∧
        ∀ c ∈ cs, clauseStatus a c ≠ ClauseStatus.Unsatisfied ∧
          clauseStatus a c ≠ ClauseStatus.Unit)
  | [], a, fin, fin', a', h => by
    intro _
    simp only [scanClauses] at h
    injection h with h1 h2
    subst h1
    subst h2
    exact ⟨PropChain.refl a, fun h => ⟨h, rfl, by simp⟩⟩
  | cl :: rest, a, fin, fin', a', h => by
    intro hsub
    have hsubr : rest ⊆ allcs := fun x hx => hsub (List.mem_cons_of_mem _ hx)
    simp only [scanClauses] at h
    split at h
    · rename_i hstatus
      rcases scanClauses_done_spec allcs rest a fin fin' a' h hsubr with ⟨h1, h2⟩
      refine ⟨h1, fun hf => ?_⟩
      rcases h2 hf with ⟨h3, h4, h5⟩
      refine ⟨h3, h4, fun d hd => ?_⟩
      rcases List.mem_cons.mp hd with h6 | h6
      · subst h6
        rw [hstatus]
        exact ⟨by simp, by simp⟩
      · exact h5 d h6
    · rename_i hstatus
      rcases scanClauses_done_spec allcs rest a fin fin' a' h hsubr with ⟨h1, h2⟩
      refine ⟨h1, fun hf => ?_⟩
      rcases h2 hf with ⟨h3, h4, h5⟩
      refine ⟨h3, h4, fun d hd => ?_⟩
      rcases List.mem_cons.mp hd with h6 | h6
      · subst h6
        rw [hstatus]
        exact ⟨by simp, by simp⟩
      · exact h5 d h6
    · cases h
    · rename_i hstatus
      split at h
      · rename_i lit hf
        have hstep : PropStep allcs a
            (a.assign lit.value (!lit.negation) (some cl)) :=
          ⟨cl, hsub (List.mem_cons_self _ _), lit, hstatus, hf, rfl⟩
        rcases scanClauses_done_spec allcs rest _ false fin' a' h hsubr with
          ⟨h1, h2⟩
        refine ⟨PropChain.step _ _ _ hstep h1, fun hf' => ?_⟩
        rcases h2 hf' with ⟨h3, _⟩
        cases h3
      · rcases scanClauses_done_spec allcs rest a false fin' a' h hsubr with
          ⟨h1, h2⟩
        refine ⟨h1, fun hf' => ?_⟩
        rcases h2 hf' with ⟨h3, _⟩
        cases h3

theorem unitPropagationAux_spec :
    ∀ (fuel : Nat) (cs : List Clause) (a : Assignments)
      (res : UnitPropagationResult) (oc : Option Clause) (a' : Assignments),
    unitPropagationAux cs fuel a = some (res, oc, a') →
    PropChain cs a a' ∧ a'.dl = a.dl ∧
    (res = UnitPropagationResult.Unresolved → oc = none ∧
      ∀ c ∈ cs, clauseStatus a' c ≠ ClauseStatus.Unsatisfied ∧
        clauseStatus a' c ≠ ClauseStatus.Unit) ∧
    (res = UnitPropagationResult.Conflict → ∃ c, oc = some c ∧ c ∈ cs ∧
      clauseStatus a' c = ClauseStatus.Unsatisfied)
  | 0, cs, a, res, oc, a', h => by cases h
  | fuel + 1, cs, a, res, oc, a', h => by
    simp only [unitPropagationAux] at h
    split at h
    · rename_i c a'' heq
      injection h with h
      simp only [Prod.mk.injEq] at h
      obtain ⟨h1, h2, h3⟩ := h
      subst h1
      subst h2
      subst h3
      rcases scanClauses_conflict_spec cs cs a true c a'' heq
          (fun x hx => hx) with ⟨hchain, hmem, hstatus⟩
      refine ⟨hchain, propChain_dl hchain, ?_, ?_⟩
      · intro hres; cases hres
      · intro _
        exact ⟨c, rfl, hmem, hstatus⟩
    · rename_i a'' heq
      injection h with h
      simp only [Prod.mk.injEq] at h
      obtain ⟨h1, h2, h3⟩ := h
      subst h1
      subst h2
      subst h3
      rcases scanClauses_done_spec cs cs a true true a'' heq
          (fun x hx => hx) with ⟨hchain, hdone⟩
      rcases hdone rfl with ⟨_, ha, hfacts⟩
      subst ha
      refine ⟨hchain, propChain_dl hchain, ?_, ?_⟩
      · intro _
        exact ⟨rfl, hfacts⟩
      · intro hres; cases hres
    · rename_i a'' heq
      rcases unitPropagationAux_spec fuel cs a'' res oc a' h with
        ⟨hchain2, hdl2, hunres, hconf⟩
      rcases scanClauses_done_spec cs cs a true false a'' heq
          (fun x hx => hx) with ⟨hchain1, _⟩
      exact ⟨propChain_trans hchain1 hchain2,
        by rw [hdl2, propChain_dl hchain1], hunres, hconf⟩

end Cdcl

namespace Cdcl

/-- C4: `unit_propagation` either returns `Unresolved` with the trail
extended to a fixpoint at which no database clause is `Unit` or
`Unsatisfied`, or returns `Conflict` together with the first clause found
`Unsatisfied` (which is `Unsatisfied` under the returned trail); every
assignment it adds is a `PropStep` — the unit clause's sole unassigned
literal's variable set to `!negation`, with that clause as antecedent, at
the current decision level — and the decision-level counter never
changes. -/
theorem unit_propagation_contract (s : CdclSolver) (fuel : Nat)
    (res : UnitPropagationResult) (oc : Option Clause) (s' : CdclSolver)
    (h : s.unit_propagation fuel = some ((res, oc), s')) :
    s'.formula = s.formula ∧ s'.sat = s.sat ∧
    s'.assignments.dl = s.assignments.dl ∧
    PropChain s.formula.clauses s.assignments s'.assignments ∧
    (res = UnitPropagationResult.Unresolved → oc = none ∧
      ∀ c ∈ s.formula.clauses,
        clauseStatus s'.assignments c ≠ ClauseStatus.Unsatisfied ∧
        clauseStatus s'.assignments c ≠ ClauseStatus.Unit) ∧
    (res = UnitPropagationResult.Conflict → ∃ c, oc = some c ∧
      c ∈ s.formula.clauses ∧
      clauseStatus s'.assignments c = ClauseStatus.Unsatisfied) ∧
    (∀ (a : Assignments) (c : Clause) (lit : Literal),
      clauseStatus a c = ClauseStatus.Unit →
      firstUnassigned a c.literals = some lit →
      ∀ l ∈ c.literals, a.get l.value = none → l = lit) := by
  simp only [CdclSolver.unit_propagation] at h
  split at h
  · cases h
  · rename_i res' oc' a' heq
    injection h with h
    simp only [Prod.mk.injEq] at h
    obtain ⟨⟨h1, h2⟩, h3⟩ := h
    subst h1
    subst h2
    subst h3
    rcases unitPropagationAux_spec fuel s.formula.clauses s.assignments res' oc'
        a' heq with ⟨hchain, hdl, hun, hcon⟩
    refine ⟨rfl, rfl, hdl, hchain, hun, hcon, ?_⟩
    intro a c lit hu hf l hl hn
    rcases (status_eq_unit_iff a c).mp hu with ⟨_, hcu⟩
    exact firstUnassigned_unique a c.literals lit hcu hf l hl hn

theorem unit_propagation_contract_witness :
    upFixture.unit_propagation 3 =
        some ((UnitPropagationResult.Unresolved, none), upFixtureResult) ∧
      PropChain upFixture.formula.clauses upFixture.assignments
        upFixtureResult.assignments :=
  ⟨by decide, (unit_propagation_contract upFixture 3
    UnitPropagationResult.Unresolved none upFixtureResult (by decide)).2.2.2.1⟩

end Cdcl

namespace Cdcl

theorem sorted_second_largest (l : List Int) (hs : l.Sorted (· ≤ ·))
    (hnd : l.Nodup) (hlen : 2 ≤ l.length) (b : Int)
    (hb : l.reverse[1]? = some b) :
    b ∈ l ∧ ∃ m, m ∈ l ∧ b < m ∧ (∀ d ∈ l, d ≤ m) ∧
      ∀ d ∈ l, d ≠ m → d ≤ b := by
  have hpair := List.pairwise_iff_getElem.mp hs
  have hinj := List.nodup_iff_injective_getElem.mp hnd
  have hmono : ∀ (i j : Nat) (hi : i < l.length) (hj : j < l.length),
      i < j → l[i] < l[j] := by
    intro i j hi hj hij
    have hle := hpair i j hi hj hij
    rcases lt_or_eq_of_le hle with h | h
    · exact h
    · exfalso
      have heq : (⟨i, hi⟩ : Fin l.length) = ⟨j, hj⟩ := hinj h
      have : i = j := by simpa using congrArg Fin.val heq
      omega
  rw [List.getElem?_reverse (by omega)] at hb
  have hidx : l.length - 1 - 1 = l.length - 2 := by omega
  rw [hidx, List.getElem?_eq_getElem (by omega)] at hb
  injection hb with hb
  have hm1 : l.length - 1 < l.length := by omega
  have hm2 : l.length - 2 < l.length := by omega
  refine ⟨hb ▸ List.getElem_mem hm2, l[l.length - 1], List.getElem_mem hm1,
    ?_, ?_, ?_⟩
  · rw [← hb]
    exact hmono (l.length - 2) (l.length - 1) hm2 hm1 (by omega)
  · intro d hd
    rcases List.mem_iff_getElem.mp hd with ⟨i, hi, hdi⟩
    rcases Nat.lt_or_ge i (l.length - 1) with h | h
    · rw [← hdi]
      exact le_of_lt (hmono i (l.length - 1) hi hm1 h)
    · have hieq : i = l.length - 1 := by omega
      subst hieq
      rw [← hdi]
  · intro d hd hne
    rcases List.mem_iff_getElem.mp hd with ⟨i, hi, hdi⟩
    rcases Nat.lt_or_ge i (l.length - 1) with h | h
    · rcases Nat.lt_or_ge i (l.length - 2) with h2 | h2
      · rw [← hdi, ← hb]
        exact le_of_lt (hmono i (l.length - 2) hi hm2 h2)
      · have hieq : i = l.length - 2 := by omega
        subst hieq
        rw [← hdi]
        exact le_of_eq hb
    · exfalso
      apply hne
      have hieq : i = l.length - 1 := by omega
      subst hieq
      rw [← hdi]

theorem dlList_some_of_assigned (a : Assignments) :
    ∀ lits : List Literal, (∀ l ∈ lits, (a.get l.value).isSome) →
    ∃ ds, dlList a lits = some ds
  | [] => fun _ => ⟨[], rfl⟩
  | l :: ls => fun h => by
    rcases Option.isSome_iff_exists.mp (h l (List.mem_cons_self _ _)) with
      ⟨asg, hasg⟩
    rcases dlList_some_of_assigned a ls
        (fun x hx => h x (List.mem_cons_of_mem _ hx)) with ⟨ds, hds⟩
    exact ⟨asg.dl :: ds, by simp only [dlList, hasg, hds]⟩

end Cdcl

namespace Cdcl

theorem dlList_mem (a : Assignments) :
    ∀ (lits : List Literal) (ds : List Int), dlList a lits = some ds →
    ∀ d ∈ ds, ∃ (l : Literal) (asg : Assignment), l ∈ lits ∧
      a.get l.value = some asg ∧ asg.dl = d
  | [], ds, h => by
    simp only [dlList] at h
    injection h with h
    subst h
    simp
  | l :: ls, ds, h => by
    simp only [dlList] at h
    split at h
    · cases h
    · rename_i asg hasg
      split at h
      · cases h
      · rename_i rest hrest
        injection h with h
        subst h
        intro d hd
        rcases List.mem_cons.mp hd with h1 | h1
        · exact ⟨l, asg, List.mem_cons_self _ _, hasg, h1.symm⟩
        · rcases dlList_mem a ls rest hrest d h1 with ⟨l', asg', hmem, hget, hdl⟩
          exact ⟨l', asg', List.mem_cons_of_mem _ hmem, hget, hdl⟩

/-- C6: when `conflict_analysis` is invoked at `DL > 0` and returns
`(b, Some L)`, let `D` be the set of decision levels recorded on the trail
for the variables of `L`'s literals: if `|D| ≤ 1` then `b = 0`, otherwise
`b` is the second-largest element of `D` (it lies in `D`, is below the
maximum, and dominates every other non-maximal element). -/
theorem conflict_analysis_backjump_level (s : CdclSolver) (fuel : Nat)
    (k : Clause) (b : Int) (L : Clause)
    (h : s.conflict_analysis fuel k = CAResult.ok b (some L)) :
    ∃ ds : List Int, dlList s.assignments L.literals = some ds ∧
      (ds.toFinset.card ≤ 1 → b = 0) ∧
      (2 ≤ ds.toFinset.card → b ∈ ds ∧ ∃ m, m ∈ ds ∧ b < m ∧
        (∀ d ∈ ds, d ≤ m) ∧ ∀ d ∈ ds, d ≠ m → d ≤ b) := by
  unfold CdclSolver.conflict_analysis at h
  split at h
  · injection h with h1 h2
    cases h2
  · split at h
    · cases h
    · split at h
      · cases h
      · cases h
      · rename_i current hdl
        split at h
        · cases h
        · rename_i ds hds
          have hcard : ds.toFinset.card =
              (List.insertionSort (· ≤ ·) ds.dedup).length := by
            rw [List.card_toFinset,
              (List.perm_insertionSort (· ≤ ·) ds.dedup).length_eq]
          split at h
          · rename_i hlen
            injection h with h1 h2
            injection h2 with h2
            subst h2
            refine ⟨ds, hds, fun _ => h1.symm, fun hc => ?_⟩
            omega
          · rename_i hlen
            split at h
            · rename_i b' hb'
              injection h with h1 h2
              injection h2 with h2
              subst h2
              subst h1
              have hmem_iff : ∀ x : Int,
                  x ∈ List.insertionSort (· ≤ ·) ds.dedup ↔ x ∈ ds := by
                intro x
                rw [(List.perm_insertionSort (· ≤ ·) ds.dedup).mem_iff,
                  List.mem_dedup]
              rcases sorted_second_largest _
                  (List.sorted_insertionSort (· ≤ ·) ds.dedup)
                  ((List.perm_insertionSort (· ≤ ·) ds.dedup).nodup_iff.mpr
                    ds.nodup_dedup)
                  (by omega) b' hb' with ⟨hbmem, m, hmmem, hblt, hmax, hsec⟩
              refine ⟨ds, hds, fun hc => by omega, fun _ => ?_⟩
              refine ⟨(hmem_iff b').mp hbmem, m, (hmem_iff m).mp hmmem, hblt,
                ?_, ?_⟩
              · intro d hd
                exact hmax d ((hmem_iff d).mpr hd)
              · intro d hd hne
                exact hsec d ((hmem_iff d).mpr hd) hne
            · cases h

end Cdcl

namespace Cdcl

theorem conflict_analysis_backjump_level_witness :
    caFixture.conflict_analysis 5 caConflictClause =
        CAResult.ok 0 (some (Clause.new [Literal.new "a" true])) ∧
      ∃ ds : List Int,
        dlList caFixture.assignments
            (Clause.new [Literal.new "a" true]).literals = some ds ∧
          (ds.toFinset.card ≤ 1 → (0 : Int) = 0) ∧
          (2 ≤ ds.toFinset.card → (0 : Int) ∈ ds ∧ ∃ m, m ∈ ds ∧ (0 : Int) < m ∧
            (∀ d ∈ ds, d ≤ m) ∧ ∀ d ∈ ds, d ≠ m → d ≤ (0 : Int)) :=
  ⟨by decide, conflict_analysis_backjump_level caFixture 5 caConflictClause 0
    (Clause.new [Literal.new "a" true]) (by decide)⟩

end Cdcl

namespace Cdcl

theorem lookupAssoc_mem_pair :
    ∀ (l : List (String × Assignment)) (k : String) (v : Assignment),
    lookupAssoc l k = some v → (k, v) ∈ l
  | [], k, v, h => by simp [lookupAssoc] at h
  | (k0, v0) :: tl, k, v, h => by
    simp only [lookupAssoc] at h
    by_cases h1 : k0 = k
    · rw [if_pos h1] at h
      injection h with h
      subst h1
      subst h
      exact List.mem_cons_self _ _
    · rw [if_neg h1] at h
      exact List.mem_cons_of_mem _ (lookupAssoc_mem_pair tl k v h)

theorem filterAtLevel_some (a : Assignments) (dl : Int) :
    ∀ lits : List Literal, (∀ l ∈ lits, (a.get l.value).isSome) →
    ∃ out, filterAtLevel a dl lits = some out ∧ out ⊆ lits
  | [] => fun _ => ⟨[], rfl, by simp⟩
  | l :: ls => fun h => by
    rcases Option.isSome_iff_exists.mp (h l (List.mem_cons_self _ _)) with
      ⟨asg, hasg⟩
    rcases filterAtLevel_some a dl ls
        (fun x hx => h x (List.mem_cons_of_mem _ hx)) with ⟨out, hout, hsub⟩
    refine ⟨if asg.dl = dl then l :: out else out, ?_, ?_⟩
    · simp only [filterAtLevel, hasg, hout]
    · by_cases hd : asg.dl = dl
      · rw [if_pos hd]
        intro x hx
        rcases List.mem_cons.mp hx with h1 | h1
        · simp [h1]
        · exact List.mem_cons_of_mem _ (hsub h1)
      · rw [if_neg hd]
        exact fun x hx => List.mem_cons_of_mem _ (hsub hx)

theorem filterHasAnte_some (a : Assignments) :
    ∀ lits : List Literal, (∀ l ∈ lits, (a.get l.value).isSome) →
    ∃ out, filterHasAnte a lits = some out ∧ out ⊆ lits ∧
      ∀ l ∈ out, ∃ asg, a.get l.value = some asg ∧ asg.antecedent.isSome
  | [] => fun _ => ⟨[], rfl, by simp, by simp⟩
  | l :: ls => fun h => by
    rcases Option.isSome_iff_exists.mp (h l (List.mem_cons_self _ _)) with
      ⟨asg, hasg⟩
    rcases filterHasAnte_some a ls
        (fun x hx => h x (List.mem_cons_of_mem _ hx)) with
      ⟨out, hout, hsub, hout2⟩
    refine ⟨if asg.antecedent.isSome then l :: out else out, ?_, ?_, ?_⟩
    · simp only [filterHasAnte, hasg, hout]
    · by_cases hd : asg.antecedent.isSome
      · rw [if_pos hd]
        intro x hx
        rcases List.mem_cons.mp hx with h1 | h1
        · simp [h1]
        · exact List.mem_cons_of_mem _ (hsub h1)
      · rw [if_neg hd]
        exact fun x hx => List.mem_cons_of_mem _ (hsub hx)
    · by_cases hd : asg.antecedent.isSome
      · rw [if_pos hd]
        intro x hx
        rcases List.mem_cons.mp hx with h1 | h1
        · subst h1
          exact ⟨asg, hasg, hd⟩
        · exact hout2 x h1
      · rw [if_neg hd]
        exact hout2

theorem caLoop_result (a : Assignments) (dl : Int)
    (hante : ∀ p ∈ a.assignments, ∀ A : Clause, p.2.antecedent = some A →
      ∀ l ∈ A.literals, (a.get l.value).isSome) :
    ∀ (fuel : Nat) (current : Clause) (lits : List Literal),
    (∀ l ∈ current.literals, (a.get l.value).isSome) →
    lits ⊆ current.literals →
    caLoop a dl fuel current lits ≠ CALoopRes.panicked ∧
    ∀ c, caLoop a dl fuel current lits = CALoopRes.done c →
      ∀ l ∈ c.literals, (a.get l.value).isSome
  | 0, current, lits => by
    intro hcur hsub
    constructor
    · intro h
      cases h
    · intro c h
      cases h
  | fuel + 1, current, lits => by
    intro hcur hsub
    by_cases hlen : lits.length = 1
    · simp only [caLoop, if_pos hlen]
      constructor
      · intro h
        cases h
      · intro c h
        injection h with h
        subst h
        exact hcur
    · rcases filterHasAnte_some a lits (fun l hl => hcur l (hsub hl)) with
        ⟨out, hout, houtsub, hante2⟩
      simp only [caLoop, if_neg hlen, hout]
      cases hh : out.head? with
      | none =>
        dsimp only
        constructor
        · intro h
          cases h
        · intro c h
          injection h with h
          subst h
          exact hcur
      | some lit =>
        dsimp only
        have hlitout : lit ∈ out := by
          cases out with
          | nil => cases hh
          | cons x xs =>
            injection hh with hh
            subst hh
            exact List.mem_cons_self _ _
        rcases hante2 lit hlitout with ⟨asg, hasg, hanteSome⟩
        rw [hasg]
        dsimp only
        rcases Option.isSome_iff_exists.mp hanteSome with ⟨ante, hanteEq⟩
        rw [hanteEq]
        dsimp only
        have hres : ∀ l ∈ (CdclSolver.resolve current ante lit.value).literals,
            (a.get l.value).isSome := by
          intro l hl
          rcases (resolve_mem current ante lit.value l).mp hl with
            ⟨h1 | h1, _, _⟩
          · exact hcur l h1
          · have hpmem : (lit.value, asg) ∈ a.assignments :=
              lookupAssoc_mem_pair _ _ _ hasg
            exact hante (lit.value, asg) hpmem ante hanteEq l h1
        rcases filterAtLevel_some a dl
            (CdclSolver.resolve current ante lit.value).literals hres with
          ⟨out2, hout2, hout2sub⟩
        rw [hout2]
        dsimp only
        exact caLoop_result a dl hante fuel _ out2 hres hout2sub

/-- C9: under the precondition that every literal of the clause passed to
`conflict_analysis` is assigned on the trail and every antecedent clause
stored on the trail has all its literals' variables assigned, every trail
lookup made by `conflict_analysis` returns `Some`: for every fuel, the
model never signals a panic, so each terminating run returns the
`(i32, Option<Clause>)` pair. -/
theorem conflict_analysis_no_unwrap_failure (s : CdclSolver) (k : Clause)
    (hk : ∀ l ∈ k.literals, (s.assignments.get l.value).isSome)
    (hante : ∀ p ∈ s.assignments.assignments, ∀ A : Clause,
      p.2.antecedent = some A →
      ∀ l ∈ A.literals, (s.assignments.get l.value).isSome) :
    ∀ fuel : Nat, s.conflict_analysis fuel k ≠ CAResult.panicked := by
  intro fuel
  unfold CdclSolver.conflict_analysis
  by_cases h0 : s.assignments.dl = 0
  · rw [if_pos h0]
    intro hcon
    cases hcon
  · rw [if_neg h0]
    rcases filterAtLevel_some s.assignments s.assignments.dl k.literals hk with
      ⟨lits, hl, hsub⟩
    rw [hl]
    dsimp only
    rcases caLoop_result s.assignments s.assignments.dl hante fuel k lits hk
        hsub with ⟨hnp, hdone⟩
    cases hcl : caLoop s.assignments s.assignments.dl fuel k lits with
    | panicked => exact absurd hcl hnp
    | fuelOut =>
      intro hcon
      cases hcon
    | done current =>
      dsimp only
      have hcur := hdone current hcl
      rcases dlList_some_of_assigned s.assignments current.literals hcur with
        ⟨ds, hds⟩
      rw [hds]
      dsimp only
      by_cases hlen : (List.insertionSort (· ≤ ·) ds.dedup).length ≤ 1
      · rw [if_pos hlen]
        intro hcon
        cases hcon
      · rw [if_neg hlen]
        have h2 : 1 < (List.insertionSort (· ≤ ·) ds.dedup).reverse.length := by
          rw [List.length_reverse]
          omega
        rw [List.getElem?_eq_getElem h2]
        intro hcon
        cases hcon

end Cdcl

namespace Cdcl

theorem conflict_analysis_no_unwrap_failure_witness :
    (∀ l ∈ caConflictClause.literals,
        (caFixture.assignments.get l.value).isSome) ∧
      caFixture.conflict_analysis 5 caConflictClause ≠ CAResult.panicked :=
  ⟨by decide, conflict_analysis_no_unwrap_failure caFixture caConflictClause
    (by decide)
    (by
      intro p hp A hA l hl
      rcases List.mem_cons.mp hp with h1 | h1
      · subst h1
        cases hA
      · rcases List.mem_cons.mp h1 with h2 | h2
        · subst h2
          injection hA with hA
          subst hA
          fin_cases hl <;> decide
        · cases h2)
    5⟩

end Cdcl

namespace Cdcl

theorem countP_eq_one_of_unique (p : Literal → Bool) :
    ∀ (l : List Literal) (x : Literal), l.Nodup → x ∈ l →
    (∀ y ∈ l, (p y = true ↔ y = x)) → l.countP p = 1
  | [], x, _, hx, _ => by cases hx
  | h :: t, x, hnd, hx, hiff => by
    rw [List.countP_cons]
    rw [List.nodup_cons] at hnd
    by_cases hhx : h = x
    · subst hhx
      have hp : p h = true := (hiff h (List.mem_cons_self _ _)).mpr rfl
      rw [hp, if_pos rfl]
      have ht : t.countP p = 0 := by
        rw [List.countP_eq_zero]
        intro y hy hpy
        have hyx := (hiff y (List.mem_cons_of_mem _ hy)).mp hpy
        subst hyx
        exact hnd.1 hy
      omega
    · have hp : p h = false := by
        by_contra hc
        have hc2 : p h = true := by simpa using hc
        exact hhx ((hiff h (List.mem_cons_self _ _)).mp hc2)
      rw [hp, if_neg (by simp)]
      have hxt : x ∈ t := by
        rcases List.mem_cons.mp hx with h1 | h1
        · exact absurd h1.symm hhx
        · exact h1
      have hrec := countP_eq_one_of_unique p t x hnd.2 hxt
        (fun y hy => hiff y (List.mem_cons_of_mem _ hy))
      omega

theorem firstUnassigned_eq_of_iff (a : Assignments) :
    ∀ (lits : List Literal) (x : Literal), x ∈ lits →
    (∀ y ∈ lits, (a.get y.value = none ↔ y = x)) →
    firstUnassigned a lits = some x
  | [], x, hx, _ => by cases hx
  | h :: t, x, hx, hiff => by
    by_cases hhx : h = x
    · subst hhx
      have hn : a.get h.value = none := (hiff h (List.mem_cons_self _ _)).mpr rfl
      simp [firstUnassigned, hn]
    · have hs : (a.get h.value).isSome := by
        cases hg : a.get h.value with
        | some _ => rfl
        | none => exact absurd ((hiff h (List.mem_cons_self _ _)).mp hg) hhx
      rcases Option.isSome_iff_exists.mp hs with ⟨asg, hasg⟩
      have hxt : x ∈ t := by
        rcases List.mem_cons.mp hx with h1 | h1
        · exact absurd h1.symm hhx
        · exact h1
      simp only [firstUnassigned, hasg]
      exact firstUnassigned_eq_of_iff a t x hxt
        (fun y hy => hiff y (List.mem_cons_of_mem _ hy))

theorem scanClauses_append_quiet (a : Assignments) (L : Clause) :
    ∀ (cs : List Clause) (fin : Bool),
    (∀ c ∈ cs, clauseStatus a c ≠ ClauseStatus.Unsatisfied ∧
      clauseStatus a c ≠ ClauseStatus.Unit) →
    scanClauses a fin (cs ++ [L]) = scanClauses a fin [L]
  | [], fin, _ => rfl
  | c :: rest, fin, hq => by
    have hc := hq c (List.mem_cons_self _ _)
    have hrest : ∀ d ∈ rest, clauseStatus a d ≠ ClauseStatus.Unsatisfied ∧
        clauseStatus a d ≠ ClauseStatus.Unit :=
      fun d hd => hq d (List.mem_cons_of_mem _ hd)
    cases hst : clauseStatus a c with
    | Satisfied =>
      rw [List.cons_append]
      simp only [scanClauses, hst]
      exact scanClauses_append_quiet a L rest fin hrest
    | Unresolved =>
      rw [List.cons_append]
      simp only [scanClauses, hst]
      exact scanClauses_append_quiet a L rest fin hrest
    | Unsatisfied => exact absurd hst hc.1
    | Unit => exact absurd hst hc.2

/-- C3: after a conflict at decision level `DL > 0`, when conflict
analysis yields `(β, L)` with `0 ≤ β < DL` and `L` asserting — the spec's
1UIP invariant: a single occurrence `ℓ` of the asserting variable, its
trail record at level `DL`, every other literal false with a record at
level `≤ β` — once the driver has appended `L` and backjumped to `β`, the
evaluator classifies `L` as `Unit` with unit literal `ℓ`, and the
subsequent propagation (the other clauses being quiet under the rewound
trail, per the spec's level-fixpoint invariant) assigns `ℓ`'s variable to
`!ℓ.negation` with antecedent `L` at level `β`. -/
theorem learned_clause_asserting (s : CdclSolver) (L : Clause) (β : Int)
    (ℓ : Literal)
    (hnd : (s.assignments.assignments.map Prod.fst).Nodup)
    (hb0 : 0 ≤ β) (hβDL : β < s.assignments.dl)
    (hndL : L.literals.Nodup) (hmem : ℓ ∈ L.literals)
    (huniq : ∀ l ∈ L.literals, l.value = ℓ.value → l = ℓ)
    (hℓdl : ∃ asg, s.assignments.get ℓ.value = some asg ∧
      asg.dl = s.assignments.dl)
    (hothers : ∀ l ∈ L.literals, l.value ≠ ℓ.value → ∃ asg,
      s.assignments.get l.value = some asg ∧ asg.value = l.negation ∧
      asg.dl ≤ β)
    (hfix : ∀ c ∈ s.formula.clauses,
      clauseStatus (afterBackjump s L β).assignments c ≠
        ClauseStatus.Unsatisfied ∧
      clauseStatus (afterBackjump s L β).assignments c ≠ ClauseStatus.Unit) :
    clauseStatus (afterBackjump s L β).assignments L = ClauseStatus.Unit ∧
    firstUnassigned (afterBackjump s L β).assignments L.literals = some ℓ ∧
    ∀ (pfuel : Nat) (res : UnitPropagationResult) (oc : Option Clause)
      (s4 : CdclSolver),
      (afterBackjump s L β).unit_propagation pfuel = some ((res, oc), s4) →
      s4.assignments.get ℓ.value =
        some (Assignment.new (!ℓ.negation) (some L) β) := by
  set a' := (afterBackjump s L β).assignments with ha'
  have hget' : ∀ (v : String) (asg : Assignment),
      a'.get v = some asg ↔ s.assignments.get v = some asg ∧ asg.dl ≤ β :=
    fun v asg => backtrack_get (s.add_learned_clause L) β hnd v asg
  have hgetℓ : a'.get ℓ.value = none := by
    cases hg : a'.get ℓ.value with
    | none => rfl
    | some asg =>
      rcases (hget' _ asg).mp hg with ⟨h1, h2⟩
      rcases hℓdl with ⟨asg0, h3, h4⟩
      rw [h3] at h1
      injection h1 with h1
      subst h1
      omega
  have hiffs : ∀ y ∈ L.literals, (a'.get y.value = none ↔ y = ℓ) := by
    intro y hy
    constructor
    · intro hnone
      by_cases hv : y.value = ℓ.value
      · exact huniq y hy hv
      · rcases hothers y hy hv with ⟨asg, h1, h2, h3⟩
        have hsv := (hget' y.value asg).mpr ⟨h1, h3⟩
        rw [hsv] at hnone
        cases hnone
    · intro hyeq
      subst hyeq
      exact hgetℓ
  have hfalse : ∀ y ∈ L.literals, y.value ≠ ℓ.value →
      isFalseLit a' y = true := by
    intro y hy hv
    rcases hothers y hy hv with ⟨asg, h1, h2, h3⟩
    rw [isFalseLit_iff]
    exact ⟨asg, (hget' y.value asg).mpr ⟨h1, h3⟩, h2⟩
  have hnotrue : ∀ y ∈ L.literals, isTrueLit a' y = false := by
    intro y hy
    by_cases hv : y.value = ℓ.value
    · have hyℓ : y = ℓ := huniq y hy hv
      subst hyℓ
      cases ht : isTrueLit a' y with
      | false => rfl
      | true =>
        rcases (isTrueLit_iff a' y).mp ht with ⟨asg, h1, _⟩
        rw [hgetℓ] at h1
        cases h1
    · rcases lit_status_trichotomy a' y with ⟨_, h2, _⟩ | ⟨h2, _, _⟩ |
        ⟨_, h2, _⟩
      · exact h2
      · rw [hfalse y hy hv] at h2
        cases h2
      · exact h2
  have hcount : L.literals.countP (isUnassigned a') = 1 := by
    apply countP_eq_one_of_unique (isUnassigned a') L.literals ℓ hndL hmem
    intro y hy
    simp only [isUnassigned, Option.isNone_iff_eq_none]
    exact hiffs y hy
  have hunit : clauseStatus a' L = ClauseStatus.Unit :=
    (status_eq_unit_iff a' L).mpr ⟨hnotrue, hcount⟩
  have hfirst : firstUnassigned a' L.literals = some ℓ :=
    firstUnassigned_eq_of_iff a' L.literals ℓ hmem hiffs
  refine ⟨hunit, hfirst, ?_⟩
  have hscan : scanClauses a' true (s.formula.clauses ++ [L]) =
      ScanResult.done false (a'.assign ℓ.value (!ℓ.negation) (some L)) := by
    rw [scanClauses_append_quiet a' L s.formula.clauses true hfix]
    simp only [scanClauses, hunit, hfirst]
  intro pfuel res oc s4 h4
  simp only [CdclSolver.unit_propagation] at h4
  split at h4
  · cases h4
  · rename_i res' oc' a4 heq
    injection h4 with h4
    simp only [Prod.mk.injEq] at h4
    obtain ⟨⟨hr1, hr2⟩, hr3⟩ := h4
    subst hr3
    have hcl : (afterBackjump s L β).formula.clauses =
        s.formula.clauses ++ [L] := rfl
    rw [hcl] at heq
    cases pfuel with
    | zero => cases heq
    | succ f =>
      simp only [unitPropagationAux] at heq
      rw [hscan] at heq
      dsimp only at heq
      rcases unitPropagationAux_spec f _ _ res' oc' a4 heq with
        ⟨hchain, _, _, _⟩
      exact propChain_get_mono hchain
        (get_assign_self a' ℓ.value (!ℓ.negation) (some L))

end Cdcl

namespace Cdcl

theorem learned_clause_asserting_witness :
    clauseStatus (afterBackjump c3Fixture c3Learned 0).assignments c3Learned =
      ClauseStatus.Unit :=
  (learned_clause_asserting c3Fixture c3Learned 0 (Literal.new "a" true)
    (by decide) (by decide) (by decide) (by decide) (by decide) (by decide)
    ⟨Assignment.new true none 1, by decide, by decide⟩
    (by
      intro l hl hv
      fin_cases hl
      exact absurd rfl hv)
    (by decide)).1

end Cdcl

namespace Cdcl

theorem lookupAssoc_isSome_of_mem_keys :
    ∀ (l : List (String × Assignment)) (k : String),
    k ∈ l.map Prod.fst → (lookupAssoc l k).isSome
  | [], k, h => by simp at h
  | (k0, v0) :: tl, k, h => by
    by_cases h1 : k0 = k
    · simp [lookupAssoc, h1]
    · simp only [List.map_cons, List.mem_cons] at h
      rcases h with h2 | h2
      · exact absurd h2.symm h1
      · simp only [lookupAssoc, if_neg h1]
        exact lookupAssoc_isSome_of_mem_keys tl k h2

theorem status_of_all_assigned (a : Assignments) (c : Clause)
    (h : ∀ l ∈ c.literals, (a.get l.value).isSome) :
    clauseStatus a c = ClauseStatus.Satisfied ∨
      clauseStatus a c = ClauseStatus.Unsatisfied := by
  by_cases ht : 0 < c.literals.countP (isTrueLit a)
  · left
    exact (status_eq_satisfied_iff a c).mpr (List.countP_pos_iff.mp ht)
  · right
    rw [status_eq_unsat_iff]
    intro l hl
    rcases lit_status_trichotomy a l with ⟨h1, _, _⟩ | ⟨_, h1, _⟩ | ⟨_, _, h1⟩
    · exact h1
    · exfalso
      exact ht (List.countP_pos_iff.mpr ⟨l, hl, h1⟩)
    · exfalso
      have h2 := h l hl
      rw [isUnassigned] at h1
      rw [Option.isNone_iff_eq_none] at h1
      rw [h1] at h2
      cases h2

theorem formulaNew_vars (cs : List Clause) :
    ∀ c ∈ cs, ∀ l ∈ c.literals, l.value ∈ (Formula.new cs).variables' := by
  intro c hc l hl
  simp only [Formula.new, List.mem_dedup, List.mem_flatMap]
  exact ⟨c, hc, List.mem_map.mpr ⟨l, hl, rfl⟩⟩

theorem pick_spec (s : CdclSolver) (i : Nat) (var : String)
    (h : s.pick_branching_variable i = some var) :
    var ∈ s.formula.variables' ∧ s.assignments.get var = none := by
  unfold CdclSolver.pick_branching_variable at h
  have hmem := List.getElem?_mem h
  rw [unassignedVars, List.mem_filter] at hmem
  refine ⟨hmem.1, ?_⟩
  exact Option.isNone_iff_eq_none.mp hmem.2

theorem filterAtLevel_sub (a : Assignments) (dl : Int) :
    ∀ (lits out : List Literal), filterAtLevel a dl lits = some out →
    out ⊆ lits
  | [], out, h => by
    simp only [filterAtLevel] at h
    injection h with h
    subst h
    simp
  | l :: ls, out, h => by
    simp only [filterAtLevel] at h
    split at h
    · cases h
    · rename_i asg hasg
      split at h
      · cases h
      · rename_i rest hrest
        injection h with h
        subst h
        have hr := filterAtLevel_sub a dl ls rest hrest
        by_cases hd : asg.dl = dl
        · rw [if_pos hd]
          intro x hx
          rcases List.mem_cons.mp hx with h1 | h1
          · simp [h1]
          · exact List.mem_cons_of_mem _ (hr h1)
        · rw [if_neg hd]
          exact fun x hx => List.mem_cons_of_mem _ (hr hx)

theorem filterHasAnte_sub (a : Assignments) :
    ∀ (lits out : List Literal), filterHasAnte a lits = some out → out ⊆ lits
  | [], out, h => by
    simp only [filterHasAnte] at h
    injection h with h
    subst h
    simp
  | l :: ls, out, h => by
    simp only [filterHasAnte] at h
    split at h
    · cases h
    · rename_i asg hasg
      split at h
      · cases h
      · rename_i rest hrest
        injection h with h
        subst h
        have hr := filterHasAnte_sub a ls rest hrest
        by_cases hd : asg.antecedent.isSome
        · rw [if_pos hd]
          intro x hx
          rcases List.mem_cons.mp hx with h1 | h1
          · simp [h1]
          · exact List.mem_cons_of_mem _ (hr h1)
        · rw [if_neg hd]
          exact fun x hx => List.mem_cons_of_mem _ (hr hx)

/-- Any property of the running resolvent preserved by every resolution
step of the analysis loop holds of the final clause. -/
theorem caLoop_done_invariant (a : Assignments) (dl : Int)
    (P : Clause → Prop)
    (hres : ∀ (current ante : Clause) (lit : Literal) (asg : Assignment),
      P current → lit ∈ current.literals →
      a.get lit.value = some asg → asg.antecedent = some ante →
      P (CdclSolver.resolve current ante lit.value)) :
    ∀ (fuel : Nat) (current : Clause) (lits : List Literal),
    P current → lits ⊆ current.literals →
    ∀ c, caLoop a dl fuel current lits = CALoopRes.done c → P c
  | 0, current, lits => fun _ _ c h => by cases h
  | fuel + 1, current, lits => fun hP hsub c h => by
    by_cases hlen : lits.length = 1
    · simp only [caLoop, if_pos hlen] at h
      injection h with h
      subst h
      exact hP
    · simp only [caLoop, if_neg hlen] at h
      split at h
      · cases h
      · rename_i lits' hout
        split at h
        · injection h with h
          subst h
          exact hP
        · rename_i lit hhead
          split at h
          · cases h
          · rename_i asg hasg
            split at h
            · cases h
            · rename_i ante hante
              split at h
              · cases h
              · rename_i lits'' hlits''
                have hlitmem : lit ∈ current.literals := by
                  have h1 : lit ∈ lits' := by
                    cases lits' with
                    | nil => cases hhead
                    | cons x xs =>
                      injection hhead with hh
                      subst hh
                      exact List.mem_cons_self _ _
                  exact hsub (filterHasAnte_sub a lits lits' hout h1)
                exact caLoop_done_invariant a dl P hres fuel _ lits''
                  (hres current ante lit asg hP hlitmem hasg hante)
                  (filterAtLevel_sub a dl _ lits'' hlits'') c h

end Cdcl

namespace Cdcl

theorem propStep_inv (F0 : List Clause) (s : CdclSolver) (a2 : Assignments)
    (hstep : PropStep s.formula.clauses s.assignments a2)
    (hinv : Inv F0 s) : Inv F0 { s with assignments := a2 } := by
  rcases hstep with ⟨c, hc, lit, hu, hf, ha2⟩
  rcases unit_clause_structure s.assignments c hu with
    ⟨lit', hf', hmem', hnone', huniq', huniqv', hfalse'⟩
  rw [hf] at hf'
  injection hf' with hf'
  subst hf'
  subst ha2
  have hmono : ∀ (v : String) (asg : Assignment),
      s.assignments.get v = some asg →
      (s.assignments.assign lit.value (!lit.negation) (some c)).get v =
        some asg :=
    fun v asg h => get_assign_mono _ _ _ _ _ _ hnone' h
  have hget2 : ∀ (v : String) (asg : Assignment),
      (s.assignments.assign lit.value (!lit.negation) (some c)).get v =
        some asg ↔
      (v = lit.value ∧ asg = Assignment.new (!lit.negation) (some c)
        s.assignments.dl) ∨
      (v ≠ lit.value ∧ s.assignments.get v = some asg) := by
    intro v asg
    by_cases hv : v = lit.value
    · subst hv
      rw [get_assign_self]
      constructor
      · intro h
        injection h with h
        exact Or.inl ⟨rfl, h.symm⟩
      · rintro (⟨_, h⟩ | ⟨h, _⟩)
        · rw [h]
        · exact absurd rfl h
    · rw [get_assign_other _ _ _ _ _ hv]
      constructor
      · intro h
        exact Or.inr ⟨hv, h⟩
      · rintro (⟨h, _⟩ | ⟨_, h⟩)
        · exact absurd h hv
        · exact h
  refine
    { keysNodup := assign_keys_nodup _ _ _ _ hinv.keysNodup
      varsNodup := hinv.varsNodup
      keysVars := ?_
      dbVars := hinv.dbVars
      orig := hinv.orig
      dbEntails := hinv.dbEntails
      dlNonneg := hinv.dlNonneg
      entryDl := ?_
      decisionDl := ?_
      anteEntails := ?_
      anteVars := ?_
      anteSound := ?_
      trailSound := ?_ }
  · intro v hv
    rcases insertAssoc_keys_sub s.assignments.assignments lit.value _ v hv with
      h1 | h1
    · rw [h1]
      exact hinv.dbVars c hc lit hmem'
    · exact hinv.keysVars v h1
  · intro v asg hget
    rcases (hget2 v asg).mp hget with ⟨_, h2⟩ | ⟨_, h2⟩
    · subst h2
      exact ⟨hinv.dlNonneg, le_refl _⟩
    · exact hinv.entryDl v asg h2
  · intro v asg hget hante
    rcases (hget2 v asg).mp hget with ⟨_, h2⟩ | ⟨_, h2⟩
    · subst h2
      cases hante
    · exact hinv.decisionDl v asg h2 hante
  · intro v asg A hget hante
    rcases (hget2 v asg).mp hget with ⟨_, h2⟩ | ⟨_, h2⟩
    · subst h2
      injection hante with hante
      subst hante
      exact hinv.dbEntails c hc
    · exact hinv.anteEntails v asg A h2 hante
  · intro v asg A hget hante
    rcases (hget2 v asg).mp hget with ⟨_, h2⟩ | ⟨_, h2⟩
    · subst h2
      injection hante with hante
      subst hante
      exact hinv.dbVars c hc
    · exact hinv.anteVars v asg A h2 hante
  · intro v asg A hget hante
    rcases (hget2 v asg).mp hget with ⟨hv, h2⟩ | ⟨hv, h2⟩
    · subst h2
      subst hv
      injection hante with hante
      subst hante
      constructor
      · exact ⟨lit, hmem', rfl, rfl, huniqv'⟩
      · intro l hl hlv
        rcases (isFalseLit_iff s.assignments l).mp (hfalse' l hl hlv) with
          ⟨asg', hg', hval'⟩
        exact ⟨asg', hmono l.value asg' hg', hval',
          (hinv.entryDl l.value asg' hg').2⟩
    · rcases hinv.anteSound v asg A h2 hante with ⟨h3, h4⟩
      refine ⟨h3, ?_⟩
      intro l hl hlv
      rcases h4 l hl hlv with ⟨asg', hg', hval', hdl'⟩
      exact ⟨asg', hmono l.value asg' hg', hval', hdl'⟩
  · intro M hM k hdec v asg hget hdl
    have hIH := hinv.trailSound M hM k
      (fun v asg h1 h2 h3 => hdec v asg (hmono v asg h1) h2 h3)
    rcases (hget2 v asg).mp hget with ⟨hv, h2⟩ | ⟨hv, h2⟩
    · subst h2
      subst hv
      have hsatc : Satisfies M c := hinv.dbEntails c hc M hM
      rcases hsatc with ⟨lt, hlt, hltT⟩
      by_cases hltv : lt.value = lit.value
      · have : lt = lit := huniqv' lt hlt hltv
        subst this
        exact hltT
      · exfalso
        rcases (isFalseLit_iff s.assignments lt).mp (hfalse' lt hlt hltv) with
          ⟨asg', hg', hval'⟩
        have hdl' : asg'.dl ≤ k :=
          le_trans (hinv.entryDl lt.value asg' hg').2 hdl
        have hMagree := hIH lt.value asg' hg' hdl'
        rw [hMagree, hval'] at hltT
        cases hn : lt.negation
        · rw [hn] at hltT
          cases hltT
        · rw [hn] at hltT
          cases hltT
    · exact hIH v asg h2 hdl

theorem propChain_inv (F0 : List Clause) (s : CdclSolver) (a2 : Assignments)
    (hchain : PropChain s.formula.clauses s.assignments a2)
    (hinv : Inv F0 s) : Inv F0 { s with assignments := a2 } := by
  obtain ⟨f, a, st⟩ := s
  dsimp only at hchain hinv ⊢
  revert hinv
  induction hchain with
  | refl a => exact id
  | step x y z hs _ ih =>
    intro hinv
    exact ih (propStep_inv F0 ⟨f, x, st⟩ y hs hinv)

end Cdcl

namespace Cdcl

theorem decision_inv (F0 : List Clause) (s : CdclSolver) (var : String)
    (val : Bool) (hvar : var ∈ s.formula.variables')
    (hunass : s.assignments.get var = none) (hinv : Inv F0 s) :
    Inv F0 { s with assignments :=
      (Assignments.assign ({ s.assignments with dl := s.assignments.dl + 1 })
        var val none) } := by
  have hmono : ∀ (v : String) (asg : Assignment),
      s.assignments.get v = some asg →
      (Assignments.assign ({ s.assignments with dl := s.assignments.dl + 1 })
        var val none).get v = some asg :=
    fun v asg h =>
      get_assign_mono ({ s.assignments with dl := s.assignments.dl + 1 })
        var v val none asg hunass h
  have hget2 : ∀ (v : String) (asg : Assignment),
      (Assignments.assign ({ s.assignments with dl := s.assignments.dl + 1 })
        var val none).get v = some asg ↔
      (v = var ∧ asg = Assignment.new val none (s.assignments.dl + 1)) ∨
      (v ≠ var ∧ s.assignments.get v = some asg) := by
    intro v asg
    by_cases hv : v = var
    · subst hv
      rw [get_assign_self]
      constructor
      · intro h
        injection h with h
        exact Or.inl ⟨rfl, h.symm⟩
      · rintro (⟨_, h⟩ | ⟨h, _⟩)
        · rw [h]
        · exact absurd rfl h
    · rw [get_assign_other _ _ _ _ _ hv]
      constructor
      · intro h
        exact Or.inr ⟨hv, h⟩
      · rintro (⟨h, _⟩ | ⟨_, h⟩)
        · exact absurd h hv
        · exact h
  have hdl0 := hinv.dlNonneg
  refine
    { keysNodup := assign_keys_nodup _ _ _ _ hinv.keysNodup
      varsNodup := hinv.varsNodup
      keysVars := ?_
      dbVars := hinv.dbVars
      orig := hinv.orig
      dbEntails := hinv.dbEntails
      dlNonneg := by
        show (0 : Int) ≤ s.assignments.dl + 1
        omega
      entryDl := ?_
      decisionDl := ?_
      anteEntails := ?_
      anteVars := ?_
      anteSound := ?_
      trailSound := ?_ }
  · intro v hv
    rcases insertAssoc_keys_sub s.assignments.assignments var _ v hv with
      h1 | h1
    · rw [h1]
      exact hvar
    · exact hinv.keysVars v h1
  · intro v asg hget
    rcases (hget2 v asg).mp hget with ⟨_, h2⟩ | ⟨_, h2⟩
    · subst h2
      constructor
      · show (0 : Int) ≤ s.assignments.dl + 1
        omega
      · exact le_refl _
    · have h3 := hinv.entryDl v asg h2
      constructor
      · exact h3.1
      · show asg.dl ≤ s.assignments.dl + 1
        omega
  · intro v asg hget hante
    rcases (hget2 v asg).mp hget with ⟨_, h2⟩ | ⟨_, h2⟩
    · subst h2
      show (1 : Int) ≤ s.assignments.dl + 1
      omega
    · exact hinv.decisionDl v asg h2 hante
  · intro v asg A hget hante
    rcases (hget2 v asg).mp hget with ⟨_, h2⟩ | ⟨_, h2⟩
    · subst h2
      cases hante
    · exact hinv.anteEntails v asg A h2 hante
  · intro v asg A hget hante
    rcases (hget2 v asg).mp hget with ⟨_, h2⟩ | ⟨_, h2⟩
    · subst h2
      cases hante
    · exact hinv.anteVars v asg A h2 hante
  · intro v asg A hget hante
    rcases (hget2 v asg).mp hget with ⟨_, h2⟩ | ⟨_, h2⟩
    · subst h2
      cases hante
    · rcases hinv.anteSound v asg A h2 hante with ⟨h3, h4⟩
      refine ⟨h3, ?_⟩
      intro l hl hlv
      rcases h4 l hl hlv with ⟨asg', hg', hval', hdl'⟩
      exact ⟨asg', hmono l.value asg' hg', hval', hdl'⟩
  · intro M hM k hdec v asg hget hdl
    have hIH := hinv.trailSound M hM k
      (fun v asg h1 h2 h3 => hdec v asg (hmono v asg h1) h2 h3)
    rcases (hget2 v asg).mp hget with ⟨hv, h2⟩ | ⟨_, h2⟩
    · subst h2
      subst hv
      exact hdec v _ hget rfl hdl
    · exact hIH v asg h2 hdl

theorem backjump_inv (F0 : List Clause) (s : CdclSolver) (b : Int)
    (hb : 0 ≤ b) (hinv : Inv F0 s) :
    Inv F0 { s.backtrack b with assignments :=
      { (s.backtrack b).assignments with dl := b } } := by
  have hget2 : ∀ (v : String) (asg : Assignment),
      (s.backtrack b).assignments.get v = some asg ↔
        s.assignments.get v = some asg ∧ asg.dl ≤ b :=
    fun v asg => backtrack_get s b hinv.keysNodup v asg
  refine
    { keysNodup := backtrack_keys_nodup s b hinv.keysNodup
      varsNodup := hinv.varsNodup
      keysVars := ?_
      dbVars := hinv.dbVars
      orig := hinv.orig
      dbEntails := hinv.dbEntails
      dlNonneg := hb
      entryDl := ?_
      decisionDl := ?_
      anteEntails := ?_
      anteVars := ?_
      anteSound := ?_
      trailSound := ?_ }
  · intro v hv
    apply hinv.keysVars
    exact ((List.filter_sublist s.assignments.assignments).map Prod.fst).subset
      hv
  · intro v asg hget
    rcases (hget2 v asg).mp hget with ⟨h1, h2⟩
    exact ⟨(hinv.entryDl v asg h1).1, h2⟩
  · intro v asg hget hante
    exact hinv.decisionDl v asg ((hget2 v asg).mp hget).1 hante
  · intro v asg A hget hante
    exact hinv.anteEntails v asg A ((hget2 v asg).mp hget).1 hante
  · intro v asg A hget hante
    exact hinv.anteVars v asg A ((hget2 v asg).mp hget).1 hante
  · intro v asg A hget hante
    rcases (hget2 v asg).mp hget with ⟨h1, h2⟩
    rcases hinv.anteSound v asg A h1 hante with ⟨h3, h4⟩
    refine ⟨h3, ?_⟩
    intro l hl hlv
    rcases h4 l hl hlv with ⟨asg', hg', hval', hdl'⟩
    exact ⟨asg', (hget2 l.value asg').mpr ⟨hg', le_trans hdl' h2⟩, hval', hdl'⟩
  · intro M hM k hdec v asg hget hdl
    rcases (hget2 v asg).mp hget with ⟨h1, h2⟩
    apply hinv.trailSound M hM (min k b) ?_ v asg h1 (le_min hdl h2)
    intro v' asg' hg' ha' hd'
    exact hdec v' asg'
      ((hget2 v' asg').mpr ⟨hg', le_trans hd' (min_le_right k b)⟩) ha'
      (le_trans hd' (min_le_left k b))

theorem addClause_inv (F0 : List Clause) (s : CdclSolver) (L : Clause)
    (hE : Entails F0 L)
    (hV : ∀ l ∈ L.literals, l.value ∈ s.formula.variables')
    (hinv : Inv F0 s) : Inv F0 (s.add_learned_clause L) := by
  refine
    { keysNodup := hinv.keysNodup
      varsNodup := hinv.varsNodup
      keysVars := hinv.keysVars
      dbVars := ?_
      orig := fun c hc => List.mem_append_left _ (hinv.orig hc)
      dbEntails := ?_
      dlNonneg := hinv.dlNonneg
      entryDl := hinv.entryDl
      decisionDl := hinv.decisionDl
      anteEntails := hinv.anteEntails
      anteVars := hinv.anteVars
      anteSound := hinv.anteSound
      trailSound := hinv.trailSound }
  · intro c hc
    rcases List.mem_append.mp hc with h1 | h1
    · exact hinv.dbVars c h1
    · rw [List.mem_singleton.mp h1]
      exact hV
  · intro c hc
    rcases List.mem_append.mp hc with h1 | h1
    · exact hinv.dbEntails c h1
    · rw [List.mem_singleton.mp h1]
      exact hE

end Cdcl

namespace Cdcl

theorem resolve_step_sound (F0 : List Clause) (s : CdclSolver)
    (hinv : Inv F0 s) (current ante : Clause) (lit : Literal)
    (asg : Assignment)
    (hP : Entails F0 current ∧
      (∀ l ∈ current.literals, isFalseLit s.assignments l = true) ∧
      ∀ l ∈ current.literals, l.value ∈ s.formula.variables')
    (hmem : lit ∈ current.literals)
    (hasg : s.assignments.get lit.value = some asg)
    (hante : asg.antecedent = some ante) :
    Entails F0 (CdclSolver.resolve current ante lit.value) ∧
    (∀ l ∈ (CdclSolver.resolve current ante lit.value).literals,
      isFalseLit s.assignments l = true) ∧
    ∀ l ∈ (CdclSolver.resolve current ante lit.value).literals,
      l.value ∈ s.formula.variables' := by
  rcases hP with ⟨hE, hF, hV⟩
  rcases hinv.anteSound lit.value asg ante hasg hante with
    ⟨⟨litv, hvm, hvv, hvneg, hvuniq⟩, hothers⟩
  have hAE := hinv.anteEntails lit.value asg ante hasg hante
  have hAV := hinv.anteVars lit.value asg ante hasg hante
  have hvalneq : ∀ l : Literal, l ≠ Literal.new lit.value true →
      l ≠ Literal.new lit.value false → l.value ≠ lit.value := by
    intro l h1 h2 hv
    cases hn : l.negation
    · refine h2 ?_
      rw [← hv, ← hn]
      rfl
    · refine h1 ?_
      rw [← hv, ← hn]
      rfl
  refine ⟨?_, ?_, ?_⟩
  · intro M hM
    by_contra hnot
    have hallF : ∀ l ∈ (CdclSolver.resolve current ante lit.value).literals,
        ¬ M l.value = !l.negation := by
      intro l hl hT
      exact hnot ⟨l, hl, hT⟩
    rcases hE M hM with ⟨lc, hlc, hlcT⟩
    by_cases hlcv : lc.value = lit.value
    · rcases hAE M hM with ⟨la, hla, hlaT⟩
      by_cases hlav : la.value = lit.value
      · have hla2 : la = litv := hvuniq la hla hlav
        subst hla2
        rcases (isFalseLit_iff _ lc).mp (hF lc hlc) with ⟨asg2, hg2, hv2⟩
        rw [hlcv] at hg2
        rw [hasg] at hg2
        injection hg2 with hg2
        subst hg2
        rw [hlcv] at hlcT
        rw [hvv] at hlaT
        rw [hlcT] at hlaT
        rw [hv2] at hvneg
        rw [hvneg] at hlaT
        rw [Bool.not_not] at hlaT
        cases hbn : la.negation <;> rw [hbn] at hlaT <;> simp at hlaT
      · apply hallF la ?_ hlaT
        rw [resolve_mem]
        refine ⟨Or.inr hla, ?_, ?_⟩
        · intro hcon
          rw [hcon] at hlav
          exact hlav rfl
        · intro hcon
          rw [hcon] at hlav
          exact hlav rfl
    · apply hallF lc ?_ hlcT
      rw [resolve_mem]
      refine ⟨Or.inl hlc, ?_, ?_⟩
      · intro hcon
        rw [hcon] at hlcv
        exact hlcv rfl
      · intro hcon
        rw [hcon] at hlcv
        exact hlcv rfl
  · intro l hl
    rcases (resolve_mem current ante lit.value l).mp hl with ⟨h1 | h1, h2, h3⟩
    · exact hF l h1
    · have hlv := hvalneq l h2 h3
      rcases hothers l h1 hlv with ⟨asg', hg', hval', _⟩
      rw [isFalseLit_iff]
      exact ⟨asg', hg', hval'⟩
  · intro l hl
    rcases (resolve_mem current ante lit.value l).mp hl with ⟨h1 | h1, _, _⟩
    · exact hV l h1
    · exact hAV l h1

theorem conflict_analysis_learned (F0 : List Clause) (s : CdclSolver)
    (cafuel : Nat) (k : Clause) (b : Int) (L : Clause) (hinv : Inv F0 s)
    (hkmem : k ∈ s.formula.clauses)
    (hkF : ∀ l ∈ k.literals, isFalseLit s.assignments l = true)
    (h : s.conflict_analysis cafuel k = CAResult.ok b (some L)) :
    Entails F0 L ∧ ∀ l ∈ L.literals, l.value ∈ s.formula.variables' := by
  unfold CdclSolver.conflict_analysis at h
  split at h
  · injection h with h1 h2
    cases h2
  · split at h
    · cases h
    · rename_i lits hfl
      split at h
      · cases h
      · cases h
      · rename_i current hloop
        have hLcur : L = current := by
          split at h
          · cases h
          · rename_i ds hds
            split at h
            · injection h with h1 h2
              injection h2 with h2
              exact h2.symm
            · split at h
              · injection h with h1 h2
                injection h2 with h2
                exact h2.symm
              · cases h
        subst hLcur
        have hres := caLoop_done_invariant s.assignments s.assignments.dl
          (fun c => Entails F0 c ∧
            (∀ l ∈ c.literals, isFalseLit s.assignments l = true) ∧
            ∀ l ∈ c.literals, l.value ∈ s.formula.variables')
          (fun current ante lit asg hP hmem hasg hante =>
            resolve_step_sound F0 s hinv current ante lit asg hP hmem hasg
              hante)
          cafuel k lits
          ⟨hinv.dbEntails k hkmem, hkF, hinv.dbVars k hkmem⟩
          (filterAtLevel_sub _ _ _ _ hfl) L hloop
        exact ⟨hres.1, hres.2.2⟩

theorem conflict_analysis_b_nonneg (s : CdclSolver) (cafuel : Nat)
    (k : Clause) (b : Int) (L : Clause)
    (hdl : ∀ (v : String) (asg : Assignment),
      s.assignments.get v = some asg → 0 ≤ asg.dl)
    (h : s.conflict_analysis cafuel k = CAResult.ok b (some L)) : 0 ≤ b := by
  unfold CdclSolver.conflict_analysis at h
  split at h
  · injection h with h1 h2
    cases h2
  · split at h
    · cases h
    · rename_i lits hfl
      split at h
      · cases h
      · cases h
      · rename_i current hloop
        split at h
        · cases h
        · rename_i ds hds
          split at h
          · injection h with h1 h2
            omega
          · split at h
            · rename_i b' hb'
              injection h with h1 h2
              rw [← h1]
              have hmem : b' ∈ List.insertionSort (· ≤ ·) ds.dedup := by
                rw [← List.mem_reverse]
                exact List.getElem?_mem hb'
              rw [(List.perm_insertionSort (· ≤ ·) ds.dedup).mem_iff,
                List.mem_dedup] at hmem
              rcases dlList_mem s.assignments current.literals ds hds b' hmem
                with ⟨l, asg, _, hg, hd⟩
              rw [← hd]
              exact hdl l.value asg hg
            · cases h

theorem conflict_analysis_none_dl0 (s : CdclSolver) (cafuel : Nat)
    (k : Clause) (b : Int)
    (h : s.conflict_analysis cafuel k = CAResult.ok b none) :
    s.assignments.dl = 0 := by
  unfold CdclSolver.conflict_analysis at h
  split at h
  · rename_i h0
    exact h0
  · split at h
    · cases h
    · split at h
      · cases h
      · cases h
      · split at h
        · cases h
        · split at h
          · injection h with h1 h2
            cases h2
          · split at h
            · injection h with h1 h2
              cases h2
            · cases h

theorem unsat_of_conflict_at_zero (F0 : List Clause) (s : CdclSolver)
    (hinv : Inv F0 s) (hdl : s.assignments.dl = 0) (k : Clause)
    (hk : k ∈ s.formula.clauses)
    (hkF : clauseStatus s.assignments k = ClauseStatus.Unsatisfied) :
    ∀ M : String → Bool, ¬ SatisfiesAll M F0 := by
  intro M hM
  have hagree : ∀ (v : String) (asg : Assignment),
      s.assignments.get v = some asg → M v = asg.value := by
    intro v asg hget
    have hd := (hinv.entryDl v asg hget).2
    rw [hdl] at hd
    apply hinv.trailSound M hM 0 ?_ v asg hget hd
    intro v' asg' hg' ha' hd'
    exfalso
    have h1 := hinv.decisionDl v' asg' hg' ha'
    omega
  rcases hinv.dbEntails k hk M hM with ⟨l, hl, hlT⟩
  have hlF := all_false_of_unsat s.assignments k hkF l hl
  rcases (isFalseLit_iff _ l).mp hlF with ⟨asg, hg, hv⟩
  have hMa := hagree l.value asg hg
  rw [hMa, hv] at hlT
  cases hb : l.negation
  · rw [hb] at hlT
    cases hlT
  · rw [hb] at hlT
    cases hlT

end Cdcl

namespace Cdcl

theorem unit_propagation_facts (F0 : List Clause) (s : CdclSolver)
    (pfuel : Nat) (res : UnitPropagationResult) (oc : Option Clause)
    (s' : CdclSolver)
    (h : s.unit_propagation pfuel = some ((res, oc), s'))
    (hinv : Inv F0 s) :
    Inv F0 s' ∧ s'.formula = s.formula ∧ s'.sat = s.sat ∧
    s'.assignments.dl = s.assignments.dl ∧
    (res = UnitPropagationResult.Unresolved →
      ∀ c ∈ s.formula.clauses,
        clauseStatus s'.assignments c ≠ ClauseStatus.Unsatisfied ∧
        clauseStatus s'.assignments c ≠ ClauseStatus.Unit) ∧
    (res = UnitPropagationResult.Conflict → ∃ c, oc = some c ∧
      c ∈ s.formula.clauses ∧
      clauseStatus s'.assignments c = ClauseStatus.Unsatisfied) := by
  simp only [CdclSolver.unit_propagation] at h
  split at h
  · cases h
  · rename_i res' oc' a' heq
    injection h with h
    simp only [Prod.mk.injEq] at h
    obtain ⟨⟨h1, h2⟩, h3⟩ := h
    subst h1
    subst h2
    subst h3
    rcases unitPropagationAux_spec pfuel s.formula.clauses s.assignments res'
        oc' a' heq with ⟨hchain, hdl, hun, hcon⟩
    refine ⟨propChain_inv F0 s a' hchain hinv, rfl, rfl, hdl, ?_, hcon⟩
    intro hres c hc
    exact (hun hres).2 c hc

theorem all_vars_in_keys (s : CdclSolver)
    (hknd : (s.assignments.assignments.map Prod.fst).Nodup)
    (hvnd : s.formula.variables'.Nodup)
    (hkv : ∀ v ∈ s.assignments.assignments.map Prod.fst,
      v ∈ s.formula.variables')
    (hall : s.all_variables_assigned = true) :
    ∀ v ∈ s.formula.variables',
      v ∈ s.assignments.assignments.map Prod.fst := by
  intro v hv
  have hsub : (s.assignments.assignments.map Prod.fst).toFinset ⊆
      s.formula.variables'.toFinset := by
    intro x hx
    exact List.mem_toFinset.mpr (hkv x (List.mem_toFinset.mp hx))
  have hlen : (s.assignments.assignments.map Prod.fst).length =
      s.formula.variables'.length := by
    simp only [CdclSolver.all_variables_assigned, beq_iff_eq] at hall
    simp [hall]
  have hcards : s.formula.variables'.toFinset.card ≤
      (s.assignments.assignments.map Prod.fst).toFinset.card := by
    rw [List.toFinset_card_of_nodup hknd, List.toFinset_card_of_nodup hvnd,
      hlen]
  have heq : (s.assignments.assignments.map Prod.fst).toFinset =
      s.formula.variables'.toFinset :=
    Finset.eq_of_subset_of_card_le hsub hcards
  rw [← List.mem_toFinset, heq, List.mem_toFinset]
  exact hv

theorem inv_init (cs : List Clause) :
    Inv cs (CdclSolver.new (Formula.new cs)) := by
  have hget : ∀ (v : String),
      (CdclSolver.new (Formula.new cs)).assignments.get v = none := by
    intro v
    rfl
  refine
    { keysNodup := by simp [CdclSolver.new, Assignments.new]
      varsNodup := List.nodup_dedup _
      keysVars := by
        intro v hv
        simp [CdclSolver.new, Assignments.new] at hv
      dbVars := formulaNew_vars cs
      orig := fun c hc => hc
      dbEntails := fun c hc M hM => hM c hc
      dlNonneg := le_refl 0
      entryDl := ?_
      decisionDl := ?_
      anteEntails := ?_
      anteVars := ?_
      anteSound := ?_
      trailSound := ?_ }
  · intro v asg h
    rw [hget v] at h
    cases h
  · intro v asg h
    rw [hget v] at h
    cases h
  · intro v asg A h
    rw [hget v] at h
    cases h
  · intro v asg A h
    rw [hget v] at h
    cases h
  · intro v asg A h
    rw [hget v] at h
    cases h
  · intro M hM k hdec v asg h
    rw [hget v] at h
    cases h

end Cdcl

namespace Cdcl

theorem innerLoop_facts (F0 : List Clause) (pfuel cafuel : Nat) :
    ∀ (ifuel : Nat) (s : CdclSolver) (r : InnerRes),
    Inv F0 s → innerLoop pfuel cafuel ifuel s = some r →
    (∀ s'', r = InnerRes.brk s'' → Inv F0 s'' ∧ s''.sat = s.sat ∧
      ∀ c ∈ s''.formula.clauses,
        clauseStatus s''.assignments c ≠ ClauseStatus.Unsatisfied ∧
        clauseStatus s''.assignments c ≠ ClauseStatus.Unit) ∧
    (∀ s'', r = InnerRes.ret s'' → s''.sat = s.sat ∧
      ∀ M : String → Bool, ¬ SatisfiesAll M F0)
  | 0, s, r, hinv, h => by cases h
  | ifuel + 1, s, r, hinv, h => by
    simp only [innerLoop] at h
    split at h
    · cases h
    · rename_i x s1 hup
      injection h with h
      subst h
      rcases unit_propagation_facts F0 s pfuel UnitPropagationResult.Unresolved
          x s1 hup hinv with ⟨hinv1, hf1, hs1, _, hfix1, _⟩
      constructor
      · intro s'' hr
        injection hr with hr
        subst hr
        refine ⟨hinv1, hs1, ?_⟩
        rw [hf1]
        exact hfix1 rfl
      · intro s'' hr
        cases hr
    · cases h
    · rename_i k s1 hup
      split at h
      · cases h
      · cases h
      · rename_i b learnt hca
        rcases unit_propagation_facts F0 s pfuel UnitPropagationResult.Conflict
            (some k) s1 hup hinv with ⟨hinv1, hf1, hs1, _, _, hconf⟩
        rcases hconf rfl with ⟨k', hk', hkmem, hkstatus⟩
        rw [Option.some_inj] at hk'
        subst hk'
        split at h
        · rename_i hblt
          injection h with h
          subst h
          constructor
          · intro s'' hr
            cases hr
          · intro s'' hr
            injection hr with hr
            subst hr
            refine ⟨hs1, ?_⟩
            cases hlearnt : learnt with
            | some L =>
              exfalso
              rw [hlearnt] at hca
              have hb0 := conflict_analysis_b_nonneg s1 cafuel k b L
                (fun v asg hg => (hinv1.entryDl v asg hg).1) hca
              omega
            | none =>
              rw [hlearnt] at hca
              have hdl0 := conflict_analysis_none_dl0 s1 cafuel k b hca
              apply unsat_of_conflict_at_zero F0 s1 hinv1 hdl0 k ?_ hkstatus
              rw [hf1]
              exact hkmem
        · rename_i hbge
          have hb0 : (0:Int) ≤ b := by omega
          cases learnt with
          | none =>
            dsimp only at h
            have hinv4 := backjump_inv F0 s1 b hb0 hinv1
            rcases innerLoop_facts F0 pfuel cafuel ifuel _ r hinv4 h with
              ⟨hbrk, hret⟩
            constructor
            · intro s'' hr
              rcases hbrk s'' hr with ⟨hi, hsEq, hfx⟩
              refine ⟨hi, ?_, hfx⟩
              rw [hsEq]
              exact hs1
            · intro s'' hr
              rcases hret s'' hr with ⟨hsEq, hM⟩
              refine ⟨?_, hM⟩
              rw [hsEq]
              exact hs1
          | some L =>
            dsimp only at h
            have hkF : ∀ l ∈ k.literals, isFalseLit s1.assignments l = true :=
              (status_eq_unsat_iff _ _).mp hkstatus
            rcases conflict_analysis_learned F0 s1 cafuel k b L hinv1
                (by rw [hf1]; exact hkmem) hkF hca with ⟨hE, hV⟩
            have hinv2 := addClause_inv F0 s1 L hE hV hinv1
            have hinv4 := backjump_inv F0 (s1.add_learned_clause L) b hb0 hinv2
            rcases innerLoop_facts F0 pfuel cafuel ifuel _ r hinv4 h with
              ⟨hbrk, hret⟩
            constructor
            · intro s'' hr
              rcases hbrk s'' hr with ⟨hi, hsEq, hfx⟩
              refine ⟨hi, ?_, hfx⟩
              rw [hsEq]
              exact hs1
            · intro s'' hr
              rcases hret s'' hr with ⟨hsEq, hM⟩
              refine ⟨?_, hM⟩
              rw [hsEq]
              exact hs1

end Cdcl

namespace Cdcl

theorem solveLoop_facts (F0 : List Clause) (pfuel cafuel ifuel : Nat) :
    ∀ (fuel : Nat) (choices : List (Nat × Bool)) (s s' : CdclSolver),
    Inv F0 s → s.sat = SolverResult.Unresolved →
    (∀ c ∈ s.formula.clauses,
      clauseStatus s.assignments c ≠ ClauseStatus.Unsatisfied ∧
      clauseStatus s.assignments c ≠ ClauseStatus.Unit) →
    solveLoop pfuel cafuel ifuel fuel choices s = some s' →
    (s'.sat = SolverResult.Satisfied →
      ∀ c ∈ F0, clauseStatus s'.assignments c = ClauseStatus.Satisfied) ∧
    (s'.sat ≠ SolverResult.Satisfied →
      ∀ M : String → Bool, ¬ SatisfiesAll M F0)
  | 0, choices, s, s', hinv, hsat, hfix, h => by cases h
  | fuel + 1, choices, s, s', hinv, hsat, hfix, h => by
    simp only [solveLoop] at h
    split at h
    · rename_i hall
      injection h with h
      subst h
      constructor
      · intro _ c hc
        have hcdb := hinv.orig hc
        have hassigned : ∀ l ∈ c.literals,
            (s.assignments.get l.value).isSome := by
          intro l hl
          have hv := hinv.dbVars c hcdb l hl
          have hk := all_vars_in_keys s hinv.keysNodup hinv.varsNodup
            hinv.keysVars hall l.value hv
          exact lookupAssoc_isSome_of_mem_keys s.assignments.assignments
            l.value hk
        rcases status_of_all_assigned s.assignments c hassigned with h1 | h1
        · exact h1
        · exact absurd h1 (hfix c hcdb).1
      · intro hne
        exact absurd rfl hne
    · split at h
      · cases h
      · rename_i i val rest
        split at h
        · cases h
        · rename_i var hpick
          rcases pick_spec s i var hpick with ⟨hvar, hunass⟩
          have hdinv := decision_inv F0 s var val hvar hunass hinv
          split at h
          · cases h
          · rename_i s'' hil
            injection h with h
            subst h
            rcases innerLoop_facts F0 pfuel cafuel ifuel _ _ hdinv hil with
              ⟨_, hret⟩
            rcases hret s'' rfl with ⟨hseq, hM⟩
            constructor
            · intro hs
              exfalso
              rw [hseq] at hs
              dsimp only at hs
              rw [hsat] at hs
              cases hs
            · intro _
              exact hM
          · rename_i s'' hil
            rcases innerLoop_facts F0 pfuel cafuel ifuel _ _ hdinv hil with
              ⟨hbrk, _⟩
            rcases hbrk s'' rfl with ⟨hi2, hseq, hfx2⟩
            have hsat2 : s''.sat = SolverResult.Unresolved := by
              rw [hseq]
              exact hsat
            exact solveLoop_facts F0 pfuel cafuel ifuel fuel rest s'' s'
              hi2 hsat2 hfx2 h

end Cdcl

namespace Cdcl

/-- **C1.** If `solve` returns with verdict `Satisfied`, then every clause
of the original input formula is classified `Satisfied` by
`clause_status` under the final trail. -/
theorem solve_satisfied_sound (cs : List Clause)
    (pfuel cafuel ifuel fuel : Nat) (choices : List (Nat × Bool))
    (s' : CdclSolver)
    (h : (CdclSolver.new (Formula.new cs)).solve pfuel cafuel ifuel fuel
      choices = some s')
    (hsat : s'.sat = SolverResult.Satisfied) :
    ∀ c ∈ cs, s'.clause_status c = ClauseStatus.Satisfied := by
  unfold CdclSolver.solve at h
  split at h
  · cases h
  · rename_i oc s1 hup
    injection h with h
    subst h
    exfalso
    rcases unit_propagation_facts cs (CdclSolver.new (Formula.new cs)) pfuel
        UnitPropagationResult.Conflict oc s1 hup (inv_init cs) with
      ⟨_, _, hs1, _, _, _⟩
    rw [hsat] at hs1
    exact SolverResult.noConfusion hs1
  · rename_i oc s1 hup
    rcases unit_propagation_facts cs (CdclSolver.new (Formula.new cs)) pfuel
        UnitPropagationResult.Unresolved oc s1 hup (inv_init cs) with
      ⟨hinv1, hf1, hs1, _, hfix1, _⟩
    have hsat1 : s1.sat = SolverResult.Unresolved := hs1
    have hfix1' : ∀ c ∈ s1.formula.clauses,
        clauseStatus s1.assignments c ≠ ClauseStatus.Unsatisfied ∧
        clauseStatus s1.assignments c ≠ ClauseStatus.Unit := by
      rw [hf1]
      exact hfix1 rfl
    intro c hc
    exact (solveLoop_facts cs pfuel cafuel ifuel fuel choices s1 s'
      hinv1 hsat1 hfix1' h).1 hsat c hc

/-- **C1 witness.** On the one-clause formula `{x}` the solver reports
`Satisfied` after the initial propagation, and the clause is indeed
`Satisfied` under the final trail. -/
theorem solve_satisfied_sound_witness :
    ({ upFixtureResult with sat := SolverResult.Satisfied }).clause_status
      (Clause.new [Literal.new "x" false]) = ClauseStatus.Satisfied :=
  solve_satisfied_sound [Clause.new [Literal.new "x" false]] 3 3 3 1 []
    { upFixtureResult with sat := SolverResult.Satisfied }
    (by decide) (by decide)
    (Clause.new [Literal.new "x" false]) (by decide)

/-- **C2.** If `solve` terminates with a verdict other than `Satisfied`
(the initial-propagation conflict or the negative-backjump return), the
input formula has no satisfying assignment: every total assignment makes
some clause of the original formula entirely false. -/
theorem solve_unsatisfied_sound (cs : List Clause)
    (pfuel cafuel ifuel fuel : Nat) (choices : List (Nat × Bool))
    (s' : CdclSolver)
    (h : (CdclSolver.new (Formula.new cs)).solve pfuel cafuel ifuel fuel
      choices = some s')
    (hsat : s'.sat ≠ SolverResult.Satisfied) :
    ∀ M : String → Bool, ∃ c ∈ cs, ∀ l ∈ c.literals,
      M l.value = l.negation := by
  have hunsat : ∀ M : String → Bool, ¬ SatisfiesAll M cs := by
    unfold CdclSolver.solve at h
    split at h
    · cases h
    · rename_i oc s1 hup
      injection h with h
      subst h
      rcases unit_propagation_facts cs (CdclSolver.new (Formula.new cs)) pfuel
          UnitPropagationResult.Conflict oc s1 hup (inv_init cs) with
        ⟨hinv1, hf1, _, hdl, _, hconf⟩
      rcases hconf rfl with ⟨k, _, hkmem, hkstatus⟩
      have hdl0 : s1.assignments.dl = 0 := hdl
      apply unsat_of_conflict_at_zero cs s1 hinv1 hdl0 k ?_ hkstatus
      rw [hf1]
      exact hkmem
    · rename_i oc s1 hup
      rcases unit_propagation_facts cs (CdclSolver.new (Formula.new cs)) pfuel
          UnitPropagationResult.Unresolved oc s1 hup (inv_init cs) with
        ⟨hinv1, hf1, hs1, _, hfix1, _⟩
      have hsat1 : s1.sat = SolverResult.Unresolved := hs1
      have hfix1' : ∀ c ∈ s1.formula.clauses,
          clauseStatus s1.assignments c ≠ ClauseStatus.Unsatisfied ∧
          clauseStatus s1.assignments c ≠ ClauseStatus.Unit := by
        rw [hf1]
        exact hfix1 rfl
      exact (solveLoop_facts cs pfuel cafuel ifuel fuel choices s1 s'
        hinv1 hsat1 hfix1' h).2 hsat
  intro M
  have hM := hunsat M
  unfold SatisfiesAll at hM
  push_neg at hM
  obtain ⟨c, hc, hns⟩ := hM
  refine ⟨c, hc, ?_⟩
  intro l hl
  unfold Satisfies at hns
  push_neg at hns
  have hne := hns l hl
  cases hneg : l.negation <;> simp_all

/-- **C2 witness.** On the formula `{x} ∧ {¬x}` the solver terminates
with verdict `Unresolved`, and the all-true assignment falsifies the
clause `{¬x}`. -/
theorem solve_unsatisfied_sound_witness :
    ∃ c ∈ c2Fix, ∀ l ∈ c.literals,
      (fun _ => true : String → Bool) l.value = l.negation :=
  solve_unsatisfied_sound c2Fix 3 3 3 1 [] c2FixResult
    (by decide) (by decide) (fun _ => true)

end Cdcl
